import Mathlib

/-!
# Operational-space controller (`Controller.cpp`)

A shallow embedding of `Controller::Controller`, `Controller::update`,
`Controller::nonlinear_objective` and `Controller::lconstraint`.

Modelling conventions.

* `double` is modelled by exact rational arithmetic (`ℚ`).  Rounding is not
  modelled, except by `roundDouble`, which is used only to show where an exact
  equality of the source depends on it.
* Fixed-size Eigen objects are functions on `Fin`: `Eigen::Vector3d` is `Fin 3 → ℚ`,
  a `3 x n` Jacobian is `Matrix (Fin 3) (Fin n) ℚ`, with `n` the number of degrees
  of freedom of the robot.
* The robot (`mRobot`, `mEndEffector`) is external: the values its accessors return
  during one call of `update` are collected in a `Snapshot`.
* Where the source combines objects whose sizes are written down independently
  (`Matrix6d::Identity()`, the default-constructed `mForces_lower_bound`), the
  operation is size-checked and returns `none` on a mismatch.
* Eigen and NLopt are libraries.  `colPivHouseholderQr().solve` is modelled in
  exact arithmetic, with Eigen's threshold on the pivots; the optimizer is a
  parameter of `update`.
* `update` has a result only when every statement it runs has one: lines 86-87
  and 102 (`pinv_Jv`, `desired_ddq`), the call of the optimizer, and the torque
  step of lines 105, 120 and 123 (`torqueStep`).
-/

open Matrix

set_option linter.dupNamespace false
set_option linter.unnecessarySeqFocus false

namespace Controller

/-- The type `Eigen::Vector3d`. -/
abbrev Vector3d := Fin 3 → ℚ

/-- The values read from the robot at lines 77-84 of `Controller::update`. -/
structure Snapshot (n : ℕ) where
  /-- Value of `mEndEffector->getTransform().translation()` -/
  x : Vector3d
  /-- Value of `mEndEffector->getLinearVelocity()` -/
  dx : Vector3d
  /-- Value of `mRobot->getInvMassMatrix()` -/
  invM : Matrix (Fin n) (Fin n) ℚ
  /-- Value of `mRobot->getMassMatrix()` -/
  M : Matrix (Fin n) (Fin n) ℚ
  /-- Value of `mRobot->getCoriolisAndGravityForces()` -/
  Cg : Fin n → ℚ
  /-- Value of `mEndEffector->getLinearJacobian()` -/
  Jv : Matrix (Fin 3) (Fin n) ℚ
  /-- Value of `mEndEffector->getLinearJacobianDeriv()` -/
  dJv : Matrix (Fin 3) (Fin n) ℚ
  /-- Value of `mRobot->getVelocities()` -/
  dq : Fin n → ℚ

/-- The data members of `Controller` that `update` reads or writes. -/
structure ControllerState (n : ℕ) where
  mForces : Fin n → ℚ
  mKp : Matrix (Fin 3) (Fin 3) ℚ
  mKv : Matrix (Fin 3) (Fin 3) ℚ

/-- The constructor `Controller::Controller`, lines 44-55: zero forces, zero gains, then the
diagonal entries of `mKp` and `mKv` set to 750 and 250. -/
def Controller (dof : ℕ) : ControllerState dof where
  mForces := fun _ => 0
  mKp := fun i j => if i = j then 750 else 0
  mKv := fun i j => if i = j then 250 else 0

/-- Line 90: `A = Jv*invM`. -/
def A {n : ℕ} (s : Snapshot n) : Matrix (Fin 3) (Fin n) ℚ :=
  s.Jv * s.invM

/-- Line 91: `b = dJv*dq`. -/
def b {n : ℕ} (s : Snapshot n) : Vector3d :=
  s.dJv *ᵥ s.dq

/-- Line 92: `M2 = Jv*invM*Jv.transpose()`. -/
def M2 {n : ℕ} (s : Snapshot n) : Matrix (Fin 3) (Fin 3) ℚ :=
  s.Jv * s.invM * s.Jvᵀ

/-- Line 95: `f = -mKp*(x - _targetPosition) - mKv*dx`. -/
def f {n : ℕ} (c : ControllerState n) (s : Snapshot n) (target : Vector3d) : Vector3d :=
  (-c.mKp) *ᵥ (s.x - target) - c.mKv *ᵥ s.dx

/-- Line 98: `desired_ddx = b + M2*f`. -/
def desired_ddx {n : ℕ} (c : ControllerState n) (s : Snapshot n) (target : Vector3d) :
    Vector3d :=
  b s + M2 s *ᵥ f c s target

/-- Line 99: `M2f = M2*f`. -/
def M2f {n : ℕ} (c : ControllerState n) (s : Snapshot n) (target : Vector3d) : Vector3d :=
  M2 s *ᵥ f c s target

/-! ## `A.colPivHouseholderQr().solve(rhs)`

Eigen's column-pivoted Householder QR is library code.  In exact arithmetic it
proceeds as follows: at step `k` the first column of largest remaining norm
among the columns `k, k+1, ...` is swapped into position `k` and becomes the
next pivot, and the part along it is removed from the remaining columns.  The
pivots are counted (`nonzeroPivots`) up to the first step `k` at which the
largest remaining squared norm is below `threshold_helper * (rows - k)`, where
`threshold_helper` is the square of the largest column norm of the matrix times
the machine epsilon, divided by `rows`.  `solve` uses the counted pivots only:
it returns the solution carried by their columns and sets the entries of all
other columns to zero.  The model below performs the same pivoting with
unnormalised orthogonal directions, so that no square root is needed: the
pivots, and hence the solution, are those of the Householder form.  For the
zero matrix the threshold is zero, zero pivots are counted and `solve` divides
by them; the model gives `solve` no value then. -/

/-- A column of the matrix during the decomposition. -/
structure Col (m n : ℕ) where
  /-- The index of the column in the matrix -/
  idx : Fin n
  /-- The column with its parts along the earlier pivots removed -/
  r : Fin m → ℚ
  /-- The combination of columns of the matrix that gives `r` -/
  c : Fin n → ℚ

/-- Squared Euclidean norm. -/
def sqNorm {m : ℕ} (v : Fin m → ℚ) : ℚ :=
  v ⬝ᵥ v

/-- The largest squared norm among the remaining columns (`maxCoeff`). -/
def maxNorm {m n : ℕ} : List (Col m n) → ℚ
  | [] => 0
  | c :: cs => max (sqNorm c.r) (maxNorm cs)

/-- Takes the first column of `t` whose squared norm is `mx` and leaves `h` in
its place (the column swap of the decomposition). -/
def extract {m n : ℕ} (h : Col m n) (mx : ℚ) : List (Col m n) → Col m n × List (Col m n)
  | [] => (h, [])
  | c :: cs =>
    if sqNorm c.r = mx then (c, h :: cs)
    else ((extract h mx cs).1, c :: (extract h mx cs).2)

/-- The pivot among the remaining columns `h :: t` (the first one of largest
norm) and the remaining columns after the swap. -/
def pickPivot {m n : ℕ} (h : Col m n) (t : List (Col m n)) : Col m n × List (Col m n) :=
  if sqNorm h.r = maxNorm (h :: t) then (h, t) else extract h (maxNorm (h :: t)) t

/-- Removes from column `c` its part along the pivot `p`. -/
def eliminate {m n : ℕ} (p c : Col m n) : Col m n where
  idx := c.idx
  r := c.r - ((c.r ⬝ᵥ p.r) / (p.r ⬝ᵥ p.r)) • p.r
  c := c.c - ((c.r ⬝ᵥ p.r) / (p.r ⬝ᵥ p.r)) • p.c

/-- The machine epsilon of `double`, `NumTraits<double>::epsilon()`. -/
def epsilon : ℚ :=
  1 / 2 ^ 52

/-- The columns of a matrix at the start of the decomposition. -/
def columns {m n : ℕ} (A : Matrix (Fin m) (Fin n) ℚ) : List (Col m n) :=
  (List.finRange n).map fun j => ⟨j, fun i => A i j, Pi.single j 1⟩

/-- The value `threshold_helper` of the decomposition:
`abs2(maxColNorm * epsilon) / rows`. -/
def thresholdHelper {m n : ℕ} (A : Matrix (Fin m) (Fin n) ℚ) : ℚ :=
  maxNorm (columns A) * epsilon ^ 2 / m

/-- The pivoting loop from step `k`, with at most `fuel` further steps on the
remaining columns; the result is the list of counted pivots in the order they
were chosen.  The loop ends at the first step whose pivot has a squared norm
below `thr * (rows - k)`. -/
def qrLoop {m n : ℕ} (thr : ℚ) : ℕ → ℕ → List (Col m n) → List (Col m n)
  | _, 0, _ => []
  | _, _ + 1, [] => []
  | k, fuel + 1, h :: t =>
    if sqNorm (pickPivot h t).1.r < thr * ((m : ℚ) - (k : ℚ)) then []
    else (pickPivot h t).1 ::
      qrLoop thr (k + 1) fuel ((pickPivot h t).2.map (eliminate (pickPivot h t).1))

/-- The decomposition `A.colPivHouseholderQr()`: `min m n` pivoting steps
starting from the columns of `A`. -/
def colPivHouseholderQr {m n : ℕ} (A : Matrix (Fin m) (Fin n) ℚ) : List (Col m n) :=
  qrLoop (thresholdHelper A) 0 (min m n) (columns A)

/-- The components of `rhs` along the pivots, expressed on the pivot columns; all
other entries are zero. -/
def solveSum {m n : ℕ} (qr : List (Col m n)) (rhs : Fin m → ℚ) : Fin n → ℚ :=
  (qr.map fun p => ((rhs ⬝ᵥ p.r) / (p.r ⬝ᵥ p.r)) • p.c).sum

/-- The call `qr.solve(rhs)`.  It has no value when a counted pivot is zero, where
Eigen divides by zero. -/
def solve {m n : ℕ} (qr : List (Col m n)) (rhs : Fin m → ℚ) : Option (Fin n → ℚ) :=
  if qr.all (fun p => decide (sqNorm p.r ≠ 0)) then some (solveSum qr rhs) else none

/-- The invariant of the pivoting loop, for the pivots `P` chosen so far and the
remaining columns `R`: every stored direction is the stated combination of
columns of `A`; the pivots are pairwise orthogonal and the remaining columns
are orthogonal to them; a vector orthogonal to all pivots is orthogonal to the
columns of `A` that became pivots, and has with a remaining column of `A` the
same product as with what is left of it; a pivot is a combination of pivot
columns, what is left of a column a combination of that column and of pivot
columns. -/
structure QRInv {m n : ℕ} (A : Matrix (Fin m) (Fin n) ℚ) (P R : List (Col m n)) : Prop where
  combP : ∀ p ∈ P, p.r = A *ᵥ p.c
  combR : ∀ c ∈ R, c.r = A *ᵥ c.c
  ortho : P.Pairwise fun p q => p.r ⬝ᵥ q.r = 0
  cross : ∀ p ∈ P, ∀ c ∈ R, p.r ⬝ᵥ c.r = 0
  colP : ∀ p ∈ P, ∀ w : Fin m → ℚ, (∀ q ∈ P, q.r ⬝ᵥ w = 0) →
    (fun i => A i p.idx) ⬝ᵥ w = 0
  colR : ∀ c ∈ R, ∀ w : Fin m → ℚ, (∀ q ∈ P, q.r ⬝ᵥ w = 0) →
    (fun i => A i c.idx) ⬝ᵥ w = c.r ⬝ᵥ w
  suppP : ∀ p ∈ P, ∀ j, p.c j ≠ 0 → ∃ q ∈ P, q.idx = j
  suppR : ∀ c ∈ R, ∀ j, c.c j ≠ 0 → j = c.idx ∨ ∃ q ∈ P, q.idx = j

/-! ## The damped pseudo-inverse and the joint-space acceleration -/

/-- Sum of two fixed-size matrices; defined only when the sizes agree. -/
def addSameSize {m n p q : ℕ} (X : Matrix (Fin m) (Fin n) ℚ) (Y : Matrix (Fin p) (Fin q) ℚ) :
    Option (Matrix (Fin m) (Fin n) ℚ) :=
  if h : m = p ∧ n = q then some (X + Matrix.of fun i j => Y (Fin.cast h.1 i) (Fin.cast h.2 j))
  else none

/-- The call `.inverse()`: adjugate over determinant; no value when the determinant
is zero. -/
def inverse {k : ℕ} (D : Matrix (Fin k) (Fin k) ℚ) : Option (Matrix (Fin k) (Fin k) ℚ) :=
  if D.det = 0 then none else some (D.det⁻¹ • D.adjugate)

/-- The expression `Jv.transpose() * (Jv * Jv.transpose() + 0.0025 * I).inverse()`
with `I` the identity of size `k`. -/
def dampedPinv (k : ℕ) {n : ℕ} (Jv : Matrix (Fin 3) (Fin n) ℚ) :
    Option (Matrix (Fin n) (Fin 3) ℚ) :=
  (addSameSize (Jv * Jvᵀ) ((1 / 400 : ℚ) • (1 : Matrix (Fin k) (Fin k) ℚ))).bind fun D =>
    (inverse D).map fun Dinv => Jvᵀ * Dinv

/-- Lines 86-87: `pinv_Jv`, where the identity is `Eigen::Matrix6d::Identity()`. -/
def pinv_Jv {n : ℕ} (Jv : Matrix (Fin 3) (Fin n) ℚ) : Option (Matrix (Fin n) (Fin 3) ℚ) :=
  dampedPinv 6 Jv

/-- Line 102: `desired_ddq = pinv_Jv*(desired_ddx - dJv*dq)`. -/
def desired_ddq {n : ℕ} (c : ControllerState n) (s : Snapshot n) (target : Vector3d) :
    Option (Fin n → ℚ) :=
  (pinv_Jv s.Jv).map fun P => P *ᵥ (desired_ddx c s target - s.dJv *ᵥ s.dq)

/-- Conversion of a `double` to `int`: truncation toward zero. -/
def truncToInt (q : ℚ) : ℤ :=
  if 0 ≤ q then ⌊q⌋ else ⌈q⌉

/-- Line 103: `int tol = 1e-8;`. -/
def tol : ℤ :=
  truncToInt (1 / 100000000)

/-! ## The optimisation problem -/

/-- The function `Controller::nonlinear_objective`. -/
def nonlinear_objective (desired_ddx ddx : Vector3d) : ℚ :=
  (ddx - desired_ddx) ⬝ᵥ (ddx - desired_ddx)

/-- Difference of a vector of size `n` and a dynamically sized `Eigen::VectorXd`;
defined only when the sizes agree. -/
def subSameSize {n : ℕ} (v : Fin n → ℚ) (w : List ℚ) : Option (Fin n → ℚ) :=
  if h : w.length = n then some fun i => v i - w.get (Fin.cast h.symm i) else none

/-- The function `Controller::lconstraint`; `Cg` is the value of
`mRobot->getCoriolisAndGravityForces()`.  The local `mForces_lower_bound` is
default-constructed, that is, of size 0. -/
def lconstraint {n : ℕ} (Cg : Fin n → ℚ) (M : Matrix (Fin n) (Fin n) ℚ)
    (desired_ddq : Fin n → ℚ) : Option (Fin n → ℚ) :=
  let mForces_lower_bound : List ℚ := []
  subSameSize (M *ᵥ desired_ddq + Cg) mForces_lower_bound

/-- What `update` registers with the optimizer at lines 108-110. -/
structure OptProblem (n : ℕ) where
  /-- Argument of `set_min_objective` -/
  objective : Vector3d → ℚ
  /-- The gradient that the objective callback writes for the optimizer at a
  point; `none` when the callback writes none -/
  gradient : Vector3d → Option Vector3d
  /-- Argument of `add_inequality_constraint`: the constraint as a function of the decision
  variable -/
  constraint : Vector3d → Option (Fin n → ℚ)
  /-- Argument of `add_inequality_constraint`: the tolerance -/
  tol : ℤ

/-- How `opt.optimize(x, ...)` ends.  The optimizer works on `x` in place, so
in each case in which `update` goes on, `x` holds what the optimizer left in
it.
* `returned x`: the call returns after converging.
* `stopped x`: the call returns without having converged (an evaluation or time
  budget was reached).
* `threw x`: the call throws a `std::exception`.
* `aborted`: the program ends inside the call, as when an assertion of Eigen
  fails in a callback; this is no `std::exception`. -/
inductive OptResult where
  | returned (x : Vector3d)
  | stopped (x : Vector3d)
  | threw (x : Vector3d)
  | aborted

/-- The optimizer (NLopt) is external: a function from the registered problem and
the initial guess to the way `optimize` ends. -/
abbrev Optimizer (n : ℕ) :=
  OptProblem n → Vector3d → OptResult

/-- Lines 108-110: the problem built by `update`.  The objective is
`nonlinear_objective` with its first parameter bound to `desired_ddx`; that
function has no gradient parameter and returns the value only.  The constraint
is `lconstraint` with `M` and `desired_ddq`, which does not read the decision
variable. -/
def problem {n : ℕ} (c : ControllerState n) (s : Snapshot n) (target : Vector3d) :
    OptProblem n where
  objective := nonlinear_objective (desired_ddx c s target)
  gradient := fun _ => none
  constraint := fun _ => (desired_ddq c s target).bind (lconstraint s.Cg s.M)
  tol := tol

/-- Lines 112-117: `desired_ddx` after the `try`/`catch` around `opt.optimize`.
The `catch` prints a message and assigns nothing, and no copy of the value
computed at line 98 is kept: after a return and after a caught exception alike,
`desired_ddx` is what the optimizer left in it.  There is no value when the
program ends inside the call. -/
def refined_ddx {n : ℕ} (c : ControllerState n) (s : Snapshot n) (target : Vector3d)
    (optimize : Optimizer n) : Option Vector3d :=
  match optimize (problem c s target) (desired_ddx c s target) with
  | OptResult.returned x => some x
  | OptResult.stopped x => some x
  | OptResult.threw x => some x
  | OptResult.aborted => none

/-- The torque step of `update`, lines 105, 120 and 123, for the value `ddx` that
`desired_ddx` has at line 120: the new controller state and the forces handed
to `mRobot->setForces`. -/
def torqueStep {n : ℕ} (c : ControllerState n) (s : Snapshot n) (ddx : Vector3d) :
    Option (ControllerState n × (Fin n → ℚ)) :=
  -- line 105: `mForces = Cg`
  let c1 : ControllerState n := { c with mForces := s.Cg }
  -- line 120: `mForces += A.colPivHouseholderQr().solve(desired_ddx - b)`
  (solve (colPivHouseholderQr (A s)) (ddx - b s)).map fun y =>
    let c2 : ControllerState n := { c1 with mForces := c1.mForces + y }
    -- line 123: `mRobot->setForces(mForces)`
    (c2, c2.mForces)

/-- Lines 104-123 of `update`: the call of the optimizer followed by the torque
step. -/
def refineAndApply {n : ℕ} (c : ControllerState n) (s : Snapshot n) (target : Vector3d)
    (optimize : Optimizer n) : Option (ControllerState n × (Fin n → ℚ)) :=
  (refined_ddx c s target optimize).bind fun ddx => torqueStep c s ddx

/-- The function `Controller::update`: the new controller state and the forces
handed to `mRobot->setForces`.  Lines 86-87 and 102 must have a value before
lines 104-123 run. -/
def update {n : ℕ} (c : ControllerState n) (s : Snapshot n) (target : Vector3d)
    (optimize : Optimizer n) : Option (ControllerState n × (Fin n → ℚ)) :=
  (desired_ddq c s target).bind fun _ => refineAndApply c s target optimize

/-! ## Double arithmetic -/

/-- Rounding of a rational to the nearest integer, ties to the even one. -/
def roundHalfEven (q : ℚ) : ℤ :=
  if q - ⌊q⌋ < 1 / 2 then ⌊q⌋
  else if 1 / 2 < q - ⌊q⌋ then ⌊q⌋ + 1
  else if ⌊q⌋ % 2 = 0 then ⌊q⌋ else ⌊q⌋ + 1

/-- Rounding of a rational to a `double`: 53 significant bits, to nearest, ties
to even.  Overflow and subnormal numbers are not modelled. -/
def roundDouble (q : ℚ) : ℚ :=
  if q = 0 then 0
  else (roundHalfEven (q / 2 ^ (Int.log 2 |q| - 52)) : ℚ) * 2 ^ (Int.log 2 |q| - 52)

/-- Line 98, `b + M2*f`, in double arithmetic, for the doubles `b` and `M2*f`. -/
def desired_ddx_double (b M2f : Vector3d) : Vector3d :=
  fun i => roundDouble (b i + M2f i)

/-- The argument `desired_ddx - b` of the solve at line 120, in double
arithmetic. -/
def rhs_double (desired_ddx b : Vector3d) : Vector3d :=
  fun i => roundDouble (desired_ddx i - b i)

/-! ## Notions used to state the properties -/

/-- States that `y` is a least-squares solution of `A·y = rhs`: no vector has a smaller
residual. -/
def IsLeastSquares {m n : ℕ} (A : Matrix (Fin m) (Fin n) ℚ) (rhs : Fin m → ℚ)
    (y : Fin n → ℚ) : Prop :=
  ∀ z : Fin n → ℚ, sqNorm (A *ᵥ y - rhs) ≤ sqNorm (A *ᵥ z - rhs)

/-- States that `y` is the minimum-norm least-squares solution of `A·y = rhs`, that is,
`y = A⁺·rhs` for the Moore-Penrose pseudo-inverse `A⁺`. -/
def IsMinNormLeastSquares {m n : ℕ} (A : Matrix (Fin m) (Fin n) ℚ) (rhs : Fin m → ℚ)
    (y : Fin n → ℚ) : Prop :=
  IsLeastSquares A rhs y ∧ ∀ z : Fin n → ℚ, IsLeastSquares A rhs z → sqNorm y ≤ sqNorm z

/-- An optimizer whose `optimize` throws before it has written to `x`. -/
def throwingOptimizer (n : ℕ) : Optimizer n :=
  fun _ x0 => OptResult.threw x0

/-- An optimizer whose `optimize` writes the point `x` and then throws. -/
def writeThenThrow (n : ℕ) (x : Vector3d) : Optimizer n :=
  fun _ _ => OptResult.threw x

/-- An optimizer whose `optimize` writes the point `x` and returns without
having converged. -/
def stoppingOptimizer (n : ℕ) (x : Vector3d) : Optimizer n :=
  fun _ _ => OptResult.stopped x

/-- An optimizer that first evaluates the registered constraint at the initial
guess, as NLopt does, and goes on as `inner` when the constraint has a value;
when it has none the program ends in the callback. -/
def evaluatingOptimizer {n : ℕ} (inner : Optimizer n) : Optimizer n :=
  fun P x0 =>
    match P.constraint x0 with
    | none => OptResult.aborted
    | some _ => inner P x0

/-- An optimizer whose `optimize` returns the point `x`. -/
def returningOptimizer (n : ℕ) (x : Vector3d) : Optimizer n :=
  fun _ _ => OptResult.returned x

/-- An optimizer that returns its initial guess. -/
def idleOptimizer (n : ℕ) : Optimizer n :=
  fun _ x0 => OptResult.returned x0

/-- A snapshot of a robot with 4 degrees of freedom, at rest at the origin, with
unit mass matrix and no Coriolis or gravity forces. -/
def snapshot4 : Snapshot 4 where
  x := 0
  dx := 0
  invM := 1
  M := 1
  Cg := 0
  Jv := !![3, 0, 0, 1; 0, 2, 0, 0; 0, 0, 1, 0]
  dJv := 0
  dq := 0

/-- A snapshot of a robot with 7 degrees of freedom whose joints are at rest. -/
def snapshot7 : Snapshot 7 where
  x := ![1, 2, 3]
  dx := 0
  invM := 1
  M := 1
  Cg := fun _ => 5
  Jv := !![1, 0, 0, 0, 0, 0, 2; 0, 1, 0, 0, 0, 0, 0; 0, 0, 1, 0, 0, 0, 0]
  dJv := !![0, 1, 0, 0, 0, 0, 0; 0, 0, 0, 0, 0, 0, 0; 0, 0, 0, 0, 0, 0, 0]
  dq := 0

/-- A snapshot of a robot with 3 degrees of freedom, at rest at the origin, whose
inverse mass matrix is `diag(10^20, 1, 10^20)`. -/
def snapshot3 : Snapshot 3 where
  x := 0
  dx := 0
  invM := !![10 ^ 20, 0, 0; 0, 1, 0; 0, 0, 10 ^ 20]
  M := !![1 / 10 ^ 20, 0, 0; 0, 1, 0; 0, 0, 1 / 10 ^ 20]
  Cg := 0
  Jv := 1
  dJv := 0
  dq := 0

/-- A snapshot of a robot with 7 degrees of freedom, at rest at the origin, whose
inverse mass matrix is `diag(1, 10^20, 10^20, 1, 1, 1, 1)`: symmetric and
positive definite, with a Jacobian of rank 3. -/
def stiffSnapshot7 : Snapshot 7 where
  x := 0
  dx := 0
  invM := Matrix.diagonal ![1, 10 ^ 20, 10 ^ 20, 1, 1, 1, 1]
  M := Matrix.diagonal ![1, 1 / 10 ^ 20, 1 / 10 ^ 20, 1, 1, 1, 1]
  Cg := 0
  Jv := !![1, 0, 0, 0, 0, 0, 0; 0, 1, 0, 0, 0, 0, 0; 0, 0, 1, 0, 0, 0, 0]
  dJv := 0
  dq := 0

/-- The controller states that can occur: the state after construction
(`init`), the state left by a call of `update` from a state that can occur
(`call`), and the state left from such a state by the torque step of lines 105,
120 and 123, for any snapshot and any value of `desired_ddx` (`step`).  Lines
104-123 of `update` change the state through the torque step only, so `step`
covers every state these lines can leave, whatever lines 86-87 and 102 do. -/
inductive Reachable (dof : ℕ) : ControllerState dof → Prop where
  | init : Reachable dof (Controller dof)
  | call (c : ControllerState dof) (s : Snapshot dof) (target : Vector3d)
      (optimize : Optimizer dof) (r : ControllerState dof × (Fin dof → ℚ)) :
      Reachable dof c → update c s target optimize = some r → Reachable dof r.1
  | step (c : ControllerState dof) (s : Snapshot dof) (ddx : Vector3d)
      (r : ControllerState dof × (Fin dof → ℚ)) :
      Reachable dof c → torqueStep c s ddx = some r → Reachable dof r.1

/-- The decision vectors an optimizer accepts for a problem, when `ok` is the
test it applies to the value of the constraint and the tolerance. -/
def feasible {n : ℕ} (P : OptProblem n) (ok : Option (Fin n → ℚ) → ℤ → Prop) :
    Set Vector3d :=
  {ddx | ok (P.constraint ddx) P.tol}

/-- States that `x` minimises `obj` over the set `S`. -/
def IsMinimiserOn (S : Set Vector3d) (obj : Vector3d → ℚ) (x : Vector3d) : Prop :=
  x ∈ S ∧ ∀ y ∈ S, obj x ≤ obj y

/-- The state after construction for 4 degrees of freedom, with another force
vector stored. -/
def otherForces4 : ControllerState 4 :=
  { Controller 4 with mForces := fun _ => 1 }

/-- A snapshot of a robot with 4 degrees of freedom whose joints move, so that
the drift term `dJv*dq` is not zero. -/
def movingSnapshot4 : Snapshot 4 :=
  { snapshot4 with
    dJv := !![1, 0, 0, 0; 0, 0, 0, 0; 0, 0, 0, 0]
    dq := ![1, 1, 1, 1] }

/-- A snapshot of a robot with 4 degrees of freedom whose entries are doubles
and for which lines 91-99 are exact in double arithmetic: the drift term is the
double nearest to 2.8, and `M2` is the identity. -/
def roundingSnapshot4 : Snapshot 4 :=
  { snapshot4 with
    Jv := !![1, 0, 0, 0; 0, 1, 0, 0; 0, 0, 1, 0]
    dJv := !![3152519739159347 / 2 ^ 50, 0, 0, 0; 0, 0, 0, 0; 0, 0, 0, 0]
    dq := ![1, 0, 0, 0] }

/-! ## Theorems -/

/-! ### Pivot selection -/

theorem sqNorm_nonneg {m : ℕ} (v : Fin m → ℚ) : 0 ≤ sqNorm v := by
  unfold sqNorm dotProduct
  exact Finset.sum_nonneg fun i _ => mul_self_nonneg (v i)

theorem sqNorm_eq_zero {m : ℕ} {v : Fin m → ℚ} : sqNorm v = 0 ↔ v = 0 :=
  dotProduct_self_eq_zero

theorem maxNorm_nonneg {m n : ℕ} (L : List (Col m n)) : 0 ≤ maxNorm L := by
  cases L with
  | nil => simp [maxNorm]
  | cons c cs => exact le_trans (sqNorm_nonneg c.r) (le_max_left _ _)

theorem le_maxNorm {m n : ℕ} {L : List (Col m n)} {c : Col m n} (hc : c ∈ L) :
    sqNorm c.r ≤ maxNorm L := by
  induction L with
  | nil => cases hc
  | cons d ds ih =>
    rcases List.mem_cons.1 hc with h | h
    · subst h
      exact le_max_left _ _
    · exact le_trans (ih h) (le_max_right _ _)

theorem maxNorm_attained {m n : ℕ} (h : Col m n) (t : List (Col m n)) :
    ∃ c ∈ h :: t, sqNorm c.r = maxNorm (h :: t) := by
  induction t generalizing h with
  | nil =>
    exact ⟨h, List.mem_cons_self _ _, by simp [maxNorm, sqNorm_nonneg]⟩
  | cons d ds ih =>
    obtain ⟨c, hc, hcn⟩ := ih d
    by_cases hle : maxNorm (d :: ds) ≤ sqNorm h.r
    · exact ⟨h, List.mem_cons_self _ _, by
        show sqNorm h.r = max (sqNorm h.r) (maxNorm (d :: ds))
        rw [max_eq_left hle]⟩
    · refine ⟨c, List.mem_cons_of_mem _ hc, ?_⟩
      show sqNorm c.r = max (sqNorm h.r) (maxNorm (d :: ds))
      rw [max_eq_right (le_of_lt (not_le.1 hle)), hcn]

theorem extract_perm {m n : ℕ} (h : Col m n) (mx : ℚ) (t : List (Col m n)) :
    List.Perm ((extract h mx t).1 :: (extract h mx t).2) (h :: t) := by
  induction t with
  | nil => simp [extract]
  | cons c cs ih =>
    unfold extract
    split_ifs with hc
    · exact List.Perm.swap _ _ _
    · exact ((List.Perm.swap _ _ _).trans (ih.cons c)).trans (List.Perm.swap _ _ _)

theorem extract_norm {m n : ℕ} (h : Col m n) (mx : ℚ) (t : List (Col m n))
    (hex : ∃ c ∈ t, sqNorm c.r = mx) : sqNorm (extract h mx t).1.r = mx := by
  induction t with
  | nil =>
    obtain ⟨c, hc, _⟩ := hex
    cases hc
  | cons d ds ih =>
    unfold extract
    split_ifs with hd
    · exact hd
    · obtain ⟨c, hc, hcn⟩ := hex
      rcases List.mem_cons.1 hc with hcd | hcd
      · subst hcd
        exact absurd hcn hd
      · exact ih ⟨c, hcd, hcn⟩

theorem pickPivot_perm {m n : ℕ} (h : Col m n) (t : List (Col m n)) :
    List.Perm ((pickPivot h t).1 :: (pickPivot h t).2) (h :: t) := by
  unfold pickPivot
  split_ifs with hh
  · exact List.Perm.refl _
  · exact extract_perm _ _ _

theorem pickPivot_norm {m n : ℕ} (h : Col m n) (t : List (Col m n)) :
    sqNorm (pickPivot h t).1.r = maxNorm (h :: t) := by
  unfold pickPivot
  split_ifs with hh
  · exact hh
  · apply extract_norm
    obtain ⟨c, hc, hcn⟩ := maxNorm_attained h t
    rcases List.mem_cons.1 hc with hch | hct
    · subst hch
      exact absurd hcn hh
    · exact ⟨c, hct, hcn⟩

/-! ### Orthogonal families -/

/-- In `ℚ^m`, the only vector orthogonal to `m` nonzero, pairwise orthogonal
vectors is zero. -/
theorem eq_zero_of_orthogonal {m : ℕ} (P : List (Fin m → ℚ)) (hlen : P.length = m)
    (hpair : P.Pairwise fun a b => a ⬝ᵥ b = 0) (hnz : ∀ p ∈ P, p ≠ 0)
    (w : Fin m → ℚ) (hw : ∀ p ∈ P, p ⬝ᵥ w = 0) : w = 0 := by
  let V : Matrix (Fin m) (Fin m) ℚ := Matrix.of fun i => P.get (Fin.cast hlen.symm i)
  have hVw : V *ᵥ w = 0 := by
    funext i
    exact hw _ (List.get_mem _ _ _)
  have hget : ∀ i j : Fin P.length, i ≠ j → P.get i ⬝ᵥ P.get j = 0 := by
    intro i j hij
    rcases lt_or_gt_of_ne hij with h | h
    · exact List.pairwise_iff_get.1 hpair i j h
    · rw [dotProduct_comm]
      exact List.pairwise_iff_get.1 hpair j i h
  have hdiag : V * Vᵀ = Matrix.diagonal fun i => sqNorm (P.get (Fin.cast hlen.symm i)) := by
    ext i j
    by_cases hij : i = j
    · subst hij
      simp [Matrix.mul_apply, V, sqNorm, dotProduct]
    · rw [Matrix.diagonal_apply_ne _ hij]
      have := hget (Fin.cast hlen.symm i) (Fin.cast hlen.symm j)
        (fun h => hij (Fin.cast_injective _ h))
      simpa [Matrix.mul_apply, V, dotProduct] using this
  have hdet : V.det ≠ 0 := by
    intro h0
    have hz : (V * Vᵀ).det = 0 := by rw [Matrix.det_mul, h0, zero_mul]
    rw [hdiag, Matrix.det_diagonal] at hz
    refine (Finset.prod_ne_zero_iff.2 fun i _ => ?_) hz
    intro hs
    exact hnz _ (List.get_mem _ _ _) (sqNorm_eq_zero.1 hs)
  exact Matrix.eq_zero_of_mulVec_eq_zero hdet hVw

/-! ### The pivoting loop -/

theorem QRInv.finish {m n : ℕ} {A : Matrix (Fin m) (Fin n) ℚ} {P R : List (Col m n)}
    (inv : QRInv A P R) : QRInv A P [] where
  combP := inv.combP
  combR := fun c hc => by cases hc
  ortho := inv.ortho
  cross := fun _ _ c hc => by cases hc
  colP := inv.colP
  colR := fun c hc => by cases hc
  suppP := inv.suppP
  suppR := fun c hc => by cases hc

theorem eliminate_r_dot {m n : ℕ} (p d : Col m n) (w : Fin m → ℚ) (hw : p.r ⬝ᵥ w = 0) :
    (eliminate p d).r ⬝ᵥ w = d.r ⬝ᵥ w := by
  simp [eliminate, sub_dotProduct, smul_dotProduct, hw]

theorem dot_eliminate_self {m n : ℕ} (p d : Col m n) : p.r ⬝ᵥ (eliminate p d).r = 0 := by
  simp only [eliminate, dotProduct_sub, dotProduct_smul, smul_eq_mul]
  by_cases hpp : p.r ⬝ᵥ p.r = 0
  · have hp0 : p.r = 0 := sqNorm_eq_zero.1 hpp
    simp [hp0]
  · rw [dotProduct_comm d.r p.r]
    field_simp

theorem QRInv.step {m n : ℕ} {A : Matrix (Fin m) (Fin n) ℚ} {P : List (Col m n)}
    {h : Col m n} {t : List (Col m n)} (inv : QRInv A P (h :: t)) :
    QRInv A (P ++ [(pickPivot h t).1])
      ((pickPivot h t).2.map (eliminate (pickPivot h t).1)) := by
  have hperm := pickPivot_perm h t
  generalize (pickPivot h t).1 = p at hperm ⊢
  generalize (pickPivot h t).2 = R at hperm ⊢
  have hp : p ∈ h :: t := hperm.subset (List.mem_cons_self _ _)
  have hR : ∀ c ∈ R, c ∈ h :: t := fun c hc => hperm.subset (List.mem_cons_of_mem _ hc)
  have hpmem : p ∈ P ++ [p] := List.mem_append_right _ (List.mem_singleton_self _)
  have hsub : ∀ q ∈ P, q ∈ P ++ [p] := fun q hq => List.mem_append_left _ hq
  refine ⟨?_, ?_, ?_, ?_, ?_, ?_, ?_, ?_⟩
  · intro q hq
    rcases List.mem_append.1 hq with hq | hq
    · exact inv.combP q hq
    · rw [List.mem_singleton.1 hq]
      exact inv.combR p hp
  · intro c hc
    obtain ⟨d, hd, rfl⟩ := List.mem_map.1 hc
    simp only [eliminate]
    rw [Matrix.mulVec_sub, Matrix.mulVec_smul, ← inv.combR d (hR d hd), ← inv.combR p hp]
  · refine List.pairwise_append.2 ⟨inv.ortho, List.pairwise_singleton _ _, ?_⟩
    intro a ha q hq
    rw [List.mem_singleton.1 hq]
    exact inv.cross a ha p hp
  · intro q hq c hc
    obtain ⟨d, hd, rfl⟩ := List.mem_map.1 hc
    rcases List.mem_append.1 hq with hq | hq
    · simp only [eliminate, dotProduct_sub, dotProduct_smul, smul_eq_mul]
      rw [inv.cross q hq d (hR d hd), inv.cross q hq p hp]
      ring
    · rw [List.mem_singleton.1 hq]
      exact dot_eliminate_self p d
  · intro q hq w hw
    rcases List.mem_append.1 hq with hq | hq
    · exact inv.colP q hq w (fun q' hq' => hw q' (hsub q' hq'))
    · rw [List.mem_singleton.1 hq,
        inv.colR p hp w (fun q' hq' => hw q' (hsub q' hq'))]
      exact hw p hpmem
  · intro c hc w hw
    obtain ⟨d, hd, rfl⟩ := List.mem_map.1 hc
    rw [eliminate_r_dot p d w (hw p hpmem)]
    exact inv.colR d (hR d hd) w (fun q' hq' => hw q' (hsub q' hq'))
  · intro q hq j hj
    rcases List.mem_append.1 hq with hq | hq
    · obtain ⟨q', hq', hidx⟩ := inv.suppP q hq j hj
      exact ⟨q', hsub q' hq', hidx⟩
    · rw [List.mem_singleton.1 hq] at hj
      rcases inv.suppR p hp j hj with hidx | ⟨q', hq', hidx⟩
      · exact ⟨p, hpmem, hidx.symm⟩
      · exact ⟨q', hsub q' hq', hidx⟩
  · intro c hc j hj
    obtain ⟨d, hd, rfl⟩ := List.mem_map.1 hc
    have hor : d.c j ≠ 0 ∨ p.c j ≠ 0 := by
      by_contra hcon
      push_neg at hcon
      apply hj
      simp [eliminate, hcon.1, hcon.2]
    rcases hor with hdj | hpj
    · rcases inv.suppR d (hR d hd) j hdj with hidx | ⟨q', hq', hidx⟩
      · exact Or.inl hidx
      · exact Or.inr ⟨q', hsub q' hq', hidx⟩
    · rcases inv.suppR p hp j hpj with hidx | ⟨q', hq', hidx⟩
      · exact Or.inr ⟨p, hpmem, hidx.symm⟩
      · exact Or.inr ⟨q', hsub q' hq', hidx⟩

theorem qrLoop_inv {m n : ℕ} {A : Matrix (Fin m) (Fin n) ℚ} (thr : ℚ) :
    ∀ (fuel k : ℕ) (P R : List (Col m n)), QRInv A P R →
      QRInv A (P ++ qrLoop thr k fuel R) []
  | 0, k, P, R, inv => by
    simp only [qrLoop, List.append_nil]
    exact inv.finish
  | fuel + 1, k, P, [], inv => by
    simp only [qrLoop, List.append_nil]
    exact inv
  | fuel + 1, k, P, h :: t, inv => by
    unfold qrLoop
    split_ifs with hz
    · rw [List.append_nil]
      exact inv.finish
    · have ih := qrLoop_inv thr fuel (k + 1) (P ++ [(pickPivot h t).1])
        ((pickPivot h t).2.map (eliminate (pickPivot h t).1)) inv.step
      simpa [List.append_assoc] using ih

theorem columns_inv {m n : ℕ} (A : Matrix (Fin m) (Fin n) ℚ) : QRInv A [] (columns A) := by
  refine ⟨?_, ?_, List.Pairwise.nil, ?_, ?_, ?_, ?_, ?_⟩
  · intro p hp
    cases hp
  · intro c hc
    obtain ⟨j, -, rfl⟩ := List.mem_map.1 hc
    funext i
    simp [Matrix.mulVec, dotProduct, Pi.single_apply]
  · intro p hp
    cases hp
  · intro p hp
    cases hp
  · intro c hc w _
    obtain ⟨j, -, rfl⟩ := List.mem_map.1 hc
    rfl
  · intro p hp
    cases hp
  · intro c hc j hj
    obtain ⟨i, -, rfl⟩ := List.mem_map.1 hc
    left
    by_contra hne
    exact hj (Pi.single_eq_of_ne hne 1)

theorem colPivHouseholderQr_inv {m n : ℕ} (A : Matrix (Fin m) (Fin n) ℚ) :
    QRInv A (colPivHouseholderQr A) [] := by
  have := qrLoop_inv (thresholdHelper A) (min m n) 0 [] (columns A) (columns_inv A)
  simpa [colPivHouseholderQr] using this

/-- With a positive threshold every counted pivot is nonzero. -/
theorem qrLoop_nonzero {m n : ℕ} (thr : ℚ) (hthr : 0 < thr) :
    ∀ (fuel k : ℕ) (R : List (Col m n)), k + fuel ≤ m →
      ∀ p ∈ qrLoop thr k fuel R, sqNorm p.r ≠ 0
  | 0, k, R, _ => by
    intro p hp
    simp [qrLoop] at hp
  | fuel + 1, k, [], _ => by
    intro p hp
    simp [qrLoop] at hp
  | fuel + 1, k, h :: t, hk => by
    intro p hp
    unfold qrLoop at hp
    split_ifs at hp with hz
    · cases hp
    · rcases List.mem_cons.1 hp with hph | hpt
      · rw [hph]
        have hkm : (k : ℚ) < m := by exact_mod_cast (by omega : k < m)
        have hpos : 0 < thr * ((m : ℚ) - (k : ℚ)) := mul_pos hthr (by linarith)
        have := not_lt.1 hz
        intro h0
        rw [h0] at this
        linarith
      · exact qrLoop_nonzero thr hthr fuel (k + 1) _ (by omega) p hpt

theorem thresholdHelper_pos {m n : ℕ} (A : Matrix (Fin m) (Fin n) ℚ) (i : Fin m) (j : Fin n)
    (hij : A i j ≠ 0) : 0 < thresholdHelper A := by
  have hm : (0 : ℚ) < m := by exact_mod_cast (Fin.pos i)
  have hcol : (⟨j, fun i => A i j, Pi.single j 1⟩ : Col m n) ∈ columns A :=
    List.mem_map_of_mem _ (List.mem_finRange j)
  have hle := le_maxNorm hcol
  have hne : sqNorm (fun i => A i j) ≠ 0 := fun h0 => hij (congrFun (sqNorm_eq_zero.1 h0) i)
  have hpos : 0 < sqNorm (fun i => A i j) := lt_of_le_of_ne (sqNorm_nonneg _) (Ne.symm hne)
  have hmax : 0 < maxNorm (columns A) := lt_of_lt_of_le hpos hle
  unfold thresholdHelper epsilon
  positivity

theorem colPivHouseholderQr_nonzero {m n : ℕ} (A : Matrix (Fin m) (Fin n) ℚ) (i : Fin m)
    (j : Fin n) (hij : A i j ≠ 0) : ∀ p ∈ colPivHouseholderQr A, sqNorm p.r ≠ 0 :=
  qrLoop_nonzero _ (thresholdHelper_pos A i j hij) (min m n) 0 (columns A)
    (by simp)

/-! ### The solution returned by `solve` -/

theorem solveSum_cons {m n : ℕ} (p : Col m n) (F : List (Col m n)) (rhs : Fin m → ℚ) :
    solveSum (p :: F) rhs = ((rhs ⬝ᵥ p.r) / (p.r ⬝ᵥ p.r)) • p.c + solveSum F rhs := by
  simp [solveSum]

theorem solveSum_zero {m n : ℕ} (F : List (Col m n)) :
    solveSum F (0 : Fin m → ℚ) = 0 := by
  induction F with
  | nil => simp [solveSum]
  | cons p F ih => rw [solveSum_cons, ih]; simp

theorem solve_of_nonzero {m n : ℕ} (qr : List (Col m n)) (hnz : ∀ p ∈ qr, sqNorm p.r ≠ 0)
    (rhs : Fin m → ℚ) : solve qr rhs = some (solveSum qr rhs) := by
  unfold solve
  rw [if_pos]
  rw [List.all_eq_true]
  intro p hp
  exact decide_eq_true (hnz p hp)

theorem solve_eq_some {m n : ℕ} (qr : List (Col m n)) (rhs : Fin m → ℚ) (y : Fin n → ℚ)
    (h : solve qr rhs = some y) : (∀ p ∈ qr, sqNorm p.r ≠ 0) ∧ y = solveSum qr rhs := by
  unfold solve at h
  split_ifs at h with hall
  · refine ⟨fun p hp => ?_, (Option.some.inj h).symm⟩
    rw [List.all_eq_true] at hall
    exact of_decide_eq_true (hall p hp)

/-- A vector orthogonal to all pivots is orthogonal to `A *ᵥ solveSum F rhs`. -/
theorem dot_mulVec_solveSum_of_orthogonal {m n : ℕ} (A : Matrix (Fin m) (Fin n) ℚ)
    (F : List (Col m n)) (hF : ∀ p ∈ F, p.r = A *ᵥ p.c) (rhs q : Fin m → ℚ)
    (hq : ∀ p ∈ F, q ⬝ᵥ p.r = 0) : q ⬝ᵥ (A *ᵥ solveSum F rhs) = 0 := by
  induction F with
  | nil => simp [solveSum]
  | cons p F ih =>
    rw [solveSum_cons, Matrix.mulVec_add, Matrix.mulVec_smul, dotProduct_add, dotProduct_smul,
      ← hF p (List.mem_cons_self _ _), hq p (List.mem_cons_self _ _),
      ih (fun p hp => hF p (List.mem_cons_of_mem _ hp))
        (fun p hp => hq p (List.mem_cons_of_mem _ hp))]
    simp

/-- Along each pivot, `A *ᵥ solveSum F rhs` has the same component as `rhs`. -/
theorem dot_mulVec_solveSum_of_mem {m n : ℕ} (A : Matrix (Fin m) (Fin n) ℚ)
    (F : List (Col m n)) (hF : ∀ p ∈ F, p.r = A *ᵥ p.c)
    (hpair : F.Pairwise fun p q => p.r ⬝ᵥ q.r = 0) (hnz : ∀ p ∈ F, sqNorm p.r ≠ 0)
    (rhs : Fin m → ℚ) (q : Col m n) (hq : q ∈ F) :
    q.r ⬝ᵥ (A *ᵥ solveSum F rhs) = q.r ⬝ᵥ rhs := by
  induction F with
  | nil => cases hq
  | cons p F ih =>
    have hpF := List.pairwise_cons.1 hpair
    have hFc : ∀ p ∈ F, p.r = A *ᵥ p.c := fun p hp => hF p (List.mem_cons_of_mem _ hp)
    rw [solveSum_cons, Matrix.mulVec_add, Matrix.mulVec_smul, dotProduct_add, dotProduct_smul,
      ← hF p (List.mem_cons_self _ _)]
    rcases List.mem_cons.1 hq with hqp | hqF
    · subst hqp
      rw [dot_mulVec_solveSum_of_orthogonal A F hFc rhs q.r (fun p hp => hpF.1 p hp)]
      have hqq : q.r ⬝ᵥ q.r ≠ 0 := hnz q (List.mem_cons_self _ _)
      rw [dotProduct_comm rhs q.r]
      simp only [smul_eq_mul, add_zero]
      field_simp
    · rw [ih hFc hpF.2 (fun p hp => hnz p (List.mem_cons_of_mem _ hp)) hqF,
        dotProduct_comm q.r p.r, hpF.1 q hqF]
      simp

/-- The entries of `solveSum F rhs` outside the columns that carry the pivots
are zero. -/
theorem solveSum_support {m n : ℕ} (F G : List (Col m n))
    (hsupp : ∀ p ∈ F, ∀ j, p.c j ≠ 0 → ∃ q ∈ G, q.idx = j) (rhs : Fin m → ℚ) (j : Fin n)
    (hj : solveSum F rhs j ≠ 0) : ∃ q ∈ G, q.idx = j := by
  induction F with
  | nil => simp [solveSum] at hj
  | cons p F ih =>
    rw [solveSum_cons] at hj
    by_cases hpj : p.c j = 0
    · apply ih (fun p hp => hsupp p (List.mem_cons_of_mem _ hp))
      intro h0
      apply hj
      simp [hpj, h0]
    · exact hsupp p (List.mem_cons_self _ _) j hpj

theorem exists_ne_zero {m n : ℕ} (A : Matrix (Fin m) (Fin n) ℚ) (hA : A ≠ 0) :
    ∃ i j, A i j ≠ 0 := by
  by_contra hcon
  push_neg at hcon
  apply hA
  ext i j
  exact hcon i j

/-- For a matrix that is not zero, every counted pivot is nonzero and `solve`
has a value. -/
theorem colPivHouseholderQr_solve {m n : ℕ} (A : Matrix (Fin m) (Fin n) ℚ) (hA : A ≠ 0)
    (rhs : Fin m → ℚ) :
    solve (colPivHouseholderQr A) rhs = some (solveSum (colPivHouseholderQr A) rhs) := by
  obtain ⟨i, j, hij⟩ := exists_ne_zero A hA
  exact solve_of_nonzero _ (colPivHouseholderQr_nonzero A i j hij) rhs

/-- The residual of the returned solution is orthogonal to every column of `A`
that carries a counted pivot. -/
theorem solve_residual_orthogonal {m n : ℕ} (A : Matrix (Fin m) (Fin n) ℚ)
    (rhs : Fin m → ℚ) (y : Fin n → ℚ) (hy : solve (colPivHouseholderQr A) rhs = some y) :
    ∀ p ∈ colPivHouseholderQr A, (fun i => A i p.idx) ⬝ᵥ (A *ᵥ y - rhs) = 0 := by
  obtain ⟨hnz, rfl⟩ := solve_eq_some _ _ _ hy
  have inv := colPivHouseholderQr_inv A
  intro p hp
  refine inv.colP p hp _ (fun q hq => ?_)
  rw [dotProduct_sub, dot_mulVec_solveSum_of_mem A _ inv.combP inv.ortho hnz rhs q hq, sub_self]

/-- The returned solution is zero outside the columns that carry a counted
pivot. -/
theorem solve_support {m n : ℕ} (A : Matrix (Fin m) (Fin n) ℚ)
    (rhs : Fin m → ℚ) (y : Fin n → ℚ) (hy : solve (colPivHouseholderQr A) rhs = some y)
    (j : Fin n) (hj : y j ≠ 0) : ∃ p ∈ colPivHouseholderQr A, p.idx = j := by
  obtain ⟨-, rfl⟩ := solve_eq_some _ _ _ hy
  exact solveSum_support _ _ (colPivHouseholderQr_inv A).suppP rhs j hj

/-- A vector whose residual is orthogonal to the columns of `A` on which `z - y`
is not zero has a residual no larger than that of `z`. -/
theorem sqNorm_residual_le {m n : ℕ} (A : Matrix (Fin m) (Fin n) ℚ) (rhs : Fin m → ℚ)
    (y z : Fin n → ℚ)
    (hres : ∀ j, z j - y j ≠ 0 → (fun i => A i j) ⬝ᵥ (A *ᵥ y - rhs) = 0) :
    sqNorm (A *ᵥ y - rhs) ≤ sqNorm (A *ᵥ z - rhs) := by
  have hsplit : A *ᵥ z - rhs = (A *ᵥ y - rhs) + A *ᵥ (z - y) := by
    rw [Matrix.mulVec_sub]
    abel
  have hcross2 : (A *ᵥ (z - y)) ⬝ᵥ (A *ᵥ y - rhs) = 0 := by
    rw [dotProduct_comm, Matrix.dotProduct_mulVec]
    unfold dotProduct
    apply Finset.sum_eq_zero
    intro j _
    by_cases hj : z j - y j = 0
    · simp [hj]
    · have h := hres j hj
      have hv : ((A *ᵥ y - rhs) ᵥ* A) j = (fun i => A i j) ⬝ᵥ (A *ᵥ y - rhs) := by
        simp only [Matrix.vecMul, dotProduct]
        exact Finset.sum_congr rfl fun i _ => mul_comm _ _
      rw [hv, h, zero_mul]
  have hcross : (A *ᵥ y - rhs) ⬝ᵥ (A *ᵥ (z - y)) = 0 := by
    rw [dotProduct_comm, hcross2]
  rw [hsplit]
  unfold sqNorm
  rw [add_dotProduct, dotProduct_add, dotProduct_add, hcross, hcross2]
  have := sqNorm_nonneg (A *ᵥ (z - y))
  unfold sqNorm at this
  linarith

/-- Among the vectors that are zero outside the columns carrying a counted
pivot, the returned solution has the least residual. -/
theorem solve_least_squares_on_pivots {m n : ℕ} (A : Matrix (Fin m) (Fin n) ℚ)
    (rhs : Fin m → ℚ) (y : Fin n → ℚ) (hy : solve (colPivHouseholderQr A) rhs = some y)
    (z : Fin n → ℚ) (hz : ∀ j, z j ≠ 0 → ∃ p ∈ colPivHouseholderQr A, p.idx = j) :
    sqNorm (A *ᵥ y - rhs) ≤ sqNorm (A *ᵥ z - rhs) := by
  apply sqNorm_residual_le
  intro j hj
  have hor : z j ≠ 0 ∨ y j ≠ 0 := by
    by_contra hcon
    push_neg at hcon
    apply hj
    rw [hcon.1, hcon.2, sub_zero]
  have hp : ∃ p ∈ colPivHouseholderQr A, p.idx = j := by
    rcases hor with h | h
    · exact hz j h
    · exact solve_support A rhs y hy j h
  obtain ⟨p, hp, rfl⟩ := hp
  exact solve_residual_orthogonal A rhs y hy p hp

/-- A matrix with `m` rows has rank `m` exactly when its rows are linearly
independent. -/
theorem rank_eq_height_iff {m n : ℕ} (A : Matrix (Fin m) (Fin n) ℚ) :
    A.rank = m ↔ ∀ w : Fin m → ℚ, w ᵥ* A = 0 → w = 0 := by
  rw [← Matrix.rank_transpose A]
  have hrn := LinearMap.finrank_range_add_finrank_ker Aᵀ.mulVecLin
  rw [Module.finrank_fin_fun] at hrn
  have hrank : Aᵀ.rank = Module.finrank ℚ (LinearMap.range Aᵀ.mulVecLin) := rfl
  constructor
  · intro h w hw
    have hker : Module.finrank ℚ (LinearMap.ker Aᵀ.mulVecLin) = 0 := by omega
    have hbot : LinearMap.ker Aᵀ.mulVecLin = ⊥ := Submodule.finrank_eq_zero.1 hker
    have hmem : w ∈ LinearMap.ker Aᵀ.mulVecLin := by
      rw [LinearMap.mem_ker, Matrix.mulVecLin_apply, Matrix.mulVec_transpose, hw]
    rw [hbot] at hmem
    simpa using hmem
  · intro h
    have hbot : LinearMap.ker Aᵀ.mulVecLin = ⊥ := by
      rw [LinearMap.ker_eq_bot']
      intro w hw
      apply h
      rw [← Matrix.mulVec_transpose]
      exact hw
    rw [hbot, finrank_bot] at hrn
    omega

/-- A matrix of rank 3 is not the zero matrix. -/
theorem ne_zero_of_rank {n : ℕ} (A : Matrix (Fin 3) (Fin n) ℚ) (hA : A.rank = 3) : A ≠ 0 := by
  intro h0
  rw [h0, Matrix.rank_zero] at hA
  exact absurd hA (by decide)

/-- When the matrix is not zero and as many pivots are counted as it has rows,
the returned solution solves `A·y = rhs` exactly. -/
theorem mulVec_solve_of_length {m n : ℕ} (A : Matrix (Fin m) (Fin n) ℚ) (hA : A ≠ 0)
    (hlen : (colPivHouseholderQr A).length = m) (rhs : Fin m → ℚ) :
    ∃ y, solve (colPivHouseholderQr A) rhs = some y ∧ A *ᵥ y = rhs := by
  have hy := colPivHouseholderQr_solve A hA rhs
  obtain ⟨hnz, -⟩ := solve_eq_some _ _ _ hy
  have inv := colPivHouseholderQr_inv A
  refine ⟨_, hy, ?_⟩
  have h0 : A *ᵥ solveSum (colPivHouseholderQr A) rhs - rhs = 0 := by
    apply eq_zero_of_orthogonal ((colPivHouseholderQr A).map fun p => p.r)
      (by rw [List.length_map, hlen])
    · rw [List.pairwise_map]
      exact inv.ortho
    · intro v hv
      obtain ⟨p, hp, rfl⟩ := List.mem_map.1 hv
      exact fun h => hnz p hp (sqNorm_eq_zero.2 h)
    · intro v hv
      obtain ⟨p, hp, rfl⟩ := List.mem_map.1 hv
      rw [dotProduct_sub, dot_mulVec_solveSum_of_mem A _ inv.combP inv.ortho hnz rhs p hp,
        sub_self]
  exact sub_eq_zero.1 h0

/-! ### The operational-space law -/

theorem f_at_rest {n : ℕ} (c : ControllerState n) (s : Snapshot n) (target : Vector3d)
    (htarget : target = s.x) (hdx : s.dx = 0) : f c s target = 0 := by
  simp [f, htarget, hdx]

theorem desired_ddx_at_rest {n : ℕ} (c : ControllerState n) (s : Snapshot n)
    (target : Vector3d) (htarget : target = s.x) (hdx : s.dx = 0) :
    desired_ddx c s target = b s := by
  simp [desired_ddx, f_at_rest c s target htarget hdx]

theorem Controller_mKp (n : ℕ) :
    (Controller n).mKp = (750 : ℚ) • (1 : Matrix (Fin 3) (Fin 3) ℚ) := by
  ext i j
  by_cases h : i = j <;> simp [Controller, h, Matrix.one_apply]

theorem Controller_mKv (n : ℕ) :
    (Controller n).mKv = (250 : ℚ) • (1 : Matrix (Fin 3) (Fin 3) ℚ) := by
  ext i j
  by_cases h : i = j <;> simp [Controller, h, Matrix.one_apply]

/-- The virtual force for the gains `Kp = 750·I`, `Kv = 250·I`. -/
theorem f_of_gains {n : ℕ} (c : ControllerState n) (s : Snapshot n) (target : Vector3d)
    (hKp : c.mKp = (750 : ℚ) • (1 : Matrix (Fin 3) (Fin 3) ℚ))
    (hKv : c.mKv = (250 : ℚ) • (1 : Matrix (Fin 3) (Fin 3) ℚ)) :
    f c s target = (750 : ℚ) • (target - s.x) - (250 : ℚ) • s.dx := by
  unfold f
  rw [hKp, hKv, Matrix.neg_mulVec, Matrix.smul_mulVec_assoc, Matrix.smul_mulVec_assoc,
    Matrix.one_mulVec, Matrix.one_mulVec, ← smul_neg, neg_sub]

/-! ### The damped pseudo-inverse -/

theorem addSameSize_same {m n : ℕ} (X Y : Matrix (Fin m) (Fin n) ℚ) :
    addSameSize X Y = some (X + Y) := by
  simp only [addSameSize, and_self, dite_true]
  rfl

/-- With `Matrix6d::Identity()` the sum at lines 86-87 is not defined, so
`pinv_Jv` has no value. -/
theorem pinv_Jv_eq_none {n : ℕ} (Jv : Matrix (Fin 3) (Fin n) ℚ) : pinv_Jv Jv = none := by
  simp [pinv_Jv, dampedPinv, addSameSize]

/-- The damped matrix `J·Jᵗ + 0.0025·I` with the identity of size 3 is
nonsingular for every `J`. -/
theorem damped_det_ne_zero {n : ℕ} (Jv : Matrix (Fin 3) (Fin n) ℚ) :
    (Jv * Jvᵀ + (1 / 400 : ℚ) • (1 : Matrix (Fin 3) (Fin 3) ℚ)).det ≠ 0 := by
  intro h0
  obtain ⟨w, hw0, hw⟩ := Matrix.exists_mulVec_eq_zero_iff.2 h0
  have hquad : w ⬝ᵥ ((Jv * Jvᵀ + (1 / 400 : ℚ) • (1 : Matrix (Fin 3) (Fin 3) ℚ)) *ᵥ w) = 0 := by
    rw [hw, dotProduct_zero]
  rw [Matrix.add_mulVec, dotProduct_add, ← Matrix.mulVec_mulVec, Matrix.dotProduct_mulVec,
    ← Matrix.mulVec_transpose, Matrix.smul_mulVec_assoc, Matrix.one_mulVec,
    dotProduct_smul, smul_eq_mul] at hquad
  have h1 := sqNorm_nonneg (Jvᵀ *ᵥ w)
  have h2 := sqNorm_nonneg w
  unfold sqNorm at h1 h2
  have h3 : w ⬝ᵥ w = 0 := by linarith
  exact hw0 (sqNorm_eq_zero.1 h3)

/-- With the identity of size 3 the damped pseudo-inverse is defined for every
Jacobian. -/
theorem dampedPinv_three {n : ℕ} (Jv : Matrix (Fin 3) (Fin n) ℚ) :
    dampedPinv 3 Jv =
      some (Jvᵀ * ((Jv * Jvᵀ + (1 / 400 : ℚ) • (1 : Matrix (Fin 3) (Fin 3) ℚ)).det⁻¹ •
        (Jv * Jvᵀ + (1 / 400 : ℚ) • (1 : Matrix (Fin 3) (Fin 3) ℚ)).adjugate)) := by
  unfold dampedPinv
  rw [addSameSize_same]
  show Option.map _ (inverse _) = _
  unfold inverse
  rw [if_neg (damped_det_ne_zero Jv)]
  rfl

/-- With the identity of size 3 the damped pseudo-inverse satisfies
`‖J⁺·v‖² ≤ 100·‖v‖²`, that is, `‖J⁺·v‖ ≤ 10·‖v‖`, for every Jacobian. -/
theorem dampedPinv_three_bounded {n : ℕ} (Jv : Matrix (Fin 3) (Fin n) ℚ) (v : Fin 3 → ℚ) :
    sqNorm ((Jvᵀ * ((Jv * Jvᵀ + (1 / 400 : ℚ) • (1 : Matrix (Fin 3) (Fin 3) ℚ)).det⁻¹ •
        (Jv * Jvᵀ + (1 / 400 : ℚ) • (1 : Matrix (Fin 3) (Fin 3) ℚ)).adjugate)) *ᵥ v)
      ≤ 100 * sqNorm v := by
  set D := Jv * Jvᵀ + (1 / 400 : ℚ) • (1 : Matrix (Fin 3) (Fin 3) ℚ) with hD
  set w := (D.det⁻¹ • D.adjugate) *ᵥ v with hw
  have hDw : D *ᵥ w = v := by
    rw [hw, Matrix.mulVec_mulVec, Matrix.mul_smul, Matrix.mul_adjugate, smul_smul,
      inv_mul_cancel₀ (damped_det_ne_zero Jv), one_smul, Matrix.one_mulVec]
  have hPv : (Jvᵀ * (D.det⁻¹ • D.adjugate)) *ᵥ v = Jvᵀ *ᵥ w := by
    rw [hw, Matrix.mulVec_mulVec]
  have hv : v = (Jv * Jvᵀ) *ᵥ w + (1 / 400 : ℚ) • w := by
    rw [← hDw, hD, Matrix.add_mulVec, Matrix.smul_mulVec_assoc, Matrix.one_mulVec]
  have hJw : sqNorm (Jvᵀ *ᵥ w) = w ⬝ᵥ ((Jv * Jvᵀ) *ᵥ w) := by
    unfold sqNorm
    rw [← Matrix.mulVec_mulVec, Matrix.dotProduct_mulVec w, ← Matrix.mulVec_transpose]
  have hsq := sqNorm_nonneg ((Jv * Jvᵀ) *ᵥ w - (1 / 400 : ℚ) • w)
  rw [hPv, hJw]
  generalize (Jv * Jvᵀ) *ᵥ w = g at hv hsq ⊢
  rw [hv]
  unfold sqNorm at hsq ⊢
  simp only [sub_dotProduct, dotProduct_sub, add_dotProduct, dotProduct_add, smul_dotProduct,
    dotProduct_smul, smul_eq_mul] at hsq ⊢
  rw [dotProduct_comm g w] at hsq ⊢
  linarith

/-- Line 102 uses `pinv_Jv`, so `desired_ddq` has no value either. -/
theorem desired_ddq_eq_none {n : ℕ} (c : ControllerState n) (s : Snapshot n)
    (target : Vector3d) : desired_ddq c s target = none := by
  simp [desired_ddq, pinv_Jv_eq_none]

/-! ### `Controller::lconstraint` -/

/-- For a robot with at least one degree of freedom the difference in
`lconstraint` is between a vector of size `n + 1` and one of size 0. -/
theorem lconstraint_eq_none {n : ℕ} (Cg : Fin (n + 1) → ℚ)
    (M : Matrix (Fin (n + 1)) (Fin (n + 1)) ℚ) (desired_ddq : Fin (n + 1) → ℚ) :
    lconstraint Cg M desired_ddq = none := by
  simp [lconstraint, subSameSize]

/-! ### `Controller::update` -/

/-- Lines 86-87 and 102 have no value, so `update` has none. -/
theorem update_eq_none {n : ℕ} (c : ControllerState n) (s : Snapshot n) (target : Vector3d)
    (optimize : Optimizer n) : update c s target optimize = none := by
  simp [update, desired_ddq_eq_none]

theorem torqueStep_of_solve {n : ℕ} (c : ControllerState n) (s : Snapshot n) (ddx : Vector3d)
    (y : Fin n → ℚ)
    (hy : solve (colPivHouseholderQr (s.Jv * s.invM)) (ddx - s.dJv *ᵥ s.dq) = some y) :
    torqueStep c s ddx = some (⟨s.Cg + y, c.mKp, c.mKv⟩, s.Cg + y) := by
  unfold torqueStep A b
  rw [hy]
  rfl

theorem torqueStep_eq_some {n : ℕ} (c : ControllerState n) (s : Snapshot n) (ddx : Vector3d)
    (r : ControllerState n × (Fin n → ℚ)) (h : torqueStep c s ddx = some r) :
    ∃ y, solve (colPivHouseholderQr (s.Jv * s.invM)) (ddx - s.dJv *ᵥ s.dq) = some y ∧
      r = (⟨s.Cg + y, c.mKp, c.mKv⟩, s.Cg + y) := by
  cases hy : solve (colPivHouseholderQr (s.Jv * s.invM)) (ddx - s.dJv *ᵥ s.dq) with
  | none =>
    have hnone : torqueStep c s ddx = none := by
      unfold torqueStep A b
      rw [hy]
      rfl
    rw [hnone] at h
    cases h
  | some y =>
    rw [torqueStep_of_solve c s ddx y hy] at h
    exact ⟨y, rfl, (Option.some.inj h).symm⟩

theorem refined_ddx_of_returned {n : ℕ} (c : ControllerState n) (s : Snapshot n)
    (target : Vector3d) (optimize : Optimizer n) (x : Vector3d)
    (h : optimize (problem c s target) (desired_ddx c s target) = OptResult.returned x) :
    refined_ddx c s target optimize = some x := by
  simp [refined_ddx, h]

theorem refineAndApply_of_refined {n : ℕ} (c : ControllerState n) (s : Snapshot n)
    (target : Vector3d) (optimize : Optimizer n) (ddx : Vector3d)
    (h : refined_ddx c s target optimize = some ddx) :
    refineAndApply c s target optimize = torqueStep c s ddx := by
  simp [refineAndApply, h]

/-- The torque step reads the gains of the state only to copy them. -/
theorem torqueStep_congr {n : ℕ} (c c' : ControllerState n) (s : Snapshot n) (ddx : Vector3d)
    (hKp : c'.mKp = c.mKp) (hKv : c'.mKv = c.mKv) :
    torqueStep c' s ddx = torqueStep c s ddx := by
  unfold torqueStep
  simp only [hKp, hKv]

/-! ### Evaluation on `snapshot4` -/

theorem snapshot4_A :
    snapshot4.Jv * snapshot4.invM = !![3, 0, 0, 1; 0, 2, 0, 0; 0, 0, 1, 0] := by
  simp [snapshot4]

theorem snapshot4_b : snapshot4.dJv *ᵥ snapshot4.dq = 0 := by
  simp [snapshot4]

theorem snapshot4_M2 : M2 snapshot4 = !![10, 0, 0; 0, 4, 0; 0, 0, 1] := by
  ext i j
  fin_cases i <;> fin_cases j <;>
    simp [M2, snapshot4, Matrix.mul_apply, Fin.sum_univ_succ, Matrix.transpose_apply,
      Matrix.vecHead, Matrix.vecTail] <;> norm_num

theorem snapshot4_desired_ddx :
    desired_ddx (Controller 4) snapshot4 ![1, 0, 0] = ![7500, 0, 0] := by
  have hf : f (Controller 4) snapshot4 ![1, 0, 0] = ![750, 0, 0] := by
    rw [f_of_gains _ _ _ (Controller_mKp 4) (Controller_mKv 4)]
    funext i
    fin_cases i <;> simp [snapshot4]
  unfold desired_ddx b
  rw [hf, snapshot4_M2, snapshot4_b, zero_add]
  funext i
  fin_cases i <;> simp [Matrix.mulVec, dotProduct, Fin.sum_univ_succ] <;> norm_num

set_option maxRecDepth 4000 in
/-- On `snapshot4` the decomposition counts 3 pivots, in the columns 0, 1 and
2, and the solution is carried by these columns. -/
theorem snapshot4_solve (rhs : Vector3d) :
    (colPivHouseholderQr
        (!![3, 0, 0, 1; 0, 2, 0, 0; 0, 0, 1, 0] : Matrix (Fin 3) (Fin 4) ℚ)).length = 3 ∧
      solve (colPivHouseholderQr
          (!![3, 0, 0, 1; 0, 2, 0, 0; 0, 0, 1, 0] : Matrix (Fin 3) (Fin 4) ℚ)) rhs
        = some ![rhs 0 / 3, rhs 1 / 2, rhs 2, 0] := by
  have hfin : List.finRange 4 = [0, 1, 2, 3] := by decide
  simp only [colPivHouseholderQr, thresholdHelper, columns, epsilon, hfin, List.map]
  norm_num [qrLoop, pickPivot, extract, maxNorm, sqNorm, dotProduct, Fin.sum_univ_succ,
    eliminate, solve, solveSum, Matrix.vecHead, Matrix.vecTail]
  funext i
  fin_cases i <;> simp [Matrix.vecHead, Matrix.vecTail, Pi.single_apply] <;> ring

theorem snapshot4_rank : (snapshot4.Jv * snapshot4.invM).rank = 3 := by
  rw [snapshot4_A, rank_eq_height_iff]
  intro w hw
  have h0 := congrFun hw 0
  have h1 := congrFun hw 1
  have h2 := congrFun hw 2
  simp [Matrix.vecMul, dotProduct, Fin.sum_univ_succ] at h0 h1 h2
  funext i
  fin_cases i <;> simp [h0, h1, h2]

/-! ### Evaluation on `snapshot3` -/

theorem snapshot3_A :
    snapshot3.Jv * snapshot3.invM = !![10 ^ 20, 0, 0; 0, 1, 0; 0, 0, 10 ^ 20] := by
  simp [snapshot3]

theorem snapshot3_rank : (snapshot3.Jv * snapshot3.invM).rank = 3 := by
  rw [snapshot3_A, rank_eq_height_iff]
  intro w hw
  have h0 := congrFun hw 0
  have h1 := congrFun hw 1
  have h2 := congrFun hw 2
  simp [Matrix.vecMul, dotProduct, Fin.sum_univ_succ] at h0 h1 h2
  funext i
  fin_cases i <;> simp [h0, h1, h2]

theorem snapshot3_desired_ddx :
    desired_ddx (Controller 3) snapshot3 ![0, 1, 0] = ![0, 750, 0] := by
  have hf : f (Controller 3) snapshot3 ![0, 1, 0] = ![0, 750, 0] := by
    rw [f_of_gains _ _ _ (Controller_mKp 3) (Controller_mKv 3)]
    funext i
    fin_cases i <;> simp [snapshot3]
  have hM2 : M2 snapshot3 = !![10 ^ 20, 0, 0; 0, 1, 0; 0, 0, 10 ^ 20] := by
    simp [M2, snapshot3]
  have hb : b snapshot3 = 0 := by
    simp [b, snapshot3]
  unfold desired_ddx
  rw [hf, hM2, hb, zero_add]
  funext i
  fin_cases i <;> simp [Matrix.mulVec, dotProduct, Fin.sum_univ_succ]

set_option maxRecDepth 4000 in
/-- On `snapshot3` the decomposition counts 2 pivots, in the columns 0 and 2:
the third pivot, of norm 1, is below the threshold.  The solution is zero in
column 1. -/
theorem snapshot3_solve (rhs : Vector3d) :
    (colPivHouseholderQr
        (!![10 ^ 20, 0, 0; 0, 1, 0; 0, 0, 10 ^ 20] : Matrix (Fin 3) (Fin 3) ℚ)).length = 2 ∧
      solve (colPivHouseholderQr
          (!![10 ^ 20, 0, 0; 0, 1, 0; 0, 0, 10 ^ 20] : Matrix (Fin 3) (Fin 3) ℚ)) rhs
        = some ![rhs 0 / 10 ^ 20, 0, rhs 2 / 10 ^ 20] := by
  have hfin : List.finRange 3 = [0, 1, 2] := by decide
  simp only [colPivHouseholderQr, thresholdHelper, columns, epsilon, hfin, List.map]
  norm_num [qrLoop, pickPivot, extract, maxNorm, sqNorm, dotProduct, Fin.sum_univ_succ,
    eliminate, solve, solveSum, Matrix.vecHead, Matrix.vecTail]
  funext i
  fin_cases i <;> simp [Matrix.vecHead, Matrix.vecTail, Pi.single_apply] <;> ring

/-! ### Evaluation on `snapshot7` -/

theorem snapshot7_rank : snapshot7.Jv.rank = 3 := by
  rw [rank_eq_height_iff]
  intro w hw
  have h0 := congrFun hw 0
  have h1 := congrFun hw 1
  have h2 := congrFun hw 2
  simp [snapshot7, Matrix.vecMul, dotProduct, Fin.sum_univ_succ] at h0 h1 h2
  funext i
  fin_cases i <;> simp [h0, h1, h2]

theorem snapshot7_invM_pos (v : Fin 7 → ℚ) (hv : v ≠ 0) :
    0 < v ⬝ᵥ (snapshot7.invM *ᵥ v) := by
  have h : snapshot7.invM = 1 := rfl
  rw [h, Matrix.one_mulVec]
  exact lt_of_le_of_ne (sqNorm_nonneg v) (fun h0 => hv (sqNorm_eq_zero.1 h0.symm))

theorem snapshot7_A :
    snapshot7.Jv * snapshot7.invM
      = !![1, 0, 0, 0, 0, 0, 2; 0, 1, 0, 0, 0, 0, 0; 0, 0, 1, 0, 0, 0, 0] := by
  simp [snapshot7]

set_option maxRecDepth 8000 in
/-- On `snapshot7` the decomposition counts 3 pivots. -/
theorem snapshot7_qr_length :
    (colPivHouseholderQr (snapshot7.Jv * snapshot7.invM)).length = 3 := by
  have hfin : List.finRange 7 = [0, 1, 2, 3, 4, 5, 6] := by decide
  rw [snapshot7_A]
  simp only [colPivHouseholderQr, thresholdHelper, columns, epsilon, hfin, List.map]
  norm_num [qrLoop, pickPivot, extract, maxNorm, sqNorm, dotProduct, Fin.sum_univ_succ,
    eliminate, Matrix.vecHead, Matrix.vecTail]

/-! ### Double arithmetic -/

theorem log_two_eq (q : ℚ) (e : ℤ) (hlo : (2 : ℚ) ^ e ≤ q) (hhi : q < (2 : ℚ) ^ (e + 1)) :
    Int.log 2 q = e := by
  have hq : 0 < q := lt_of_lt_of_le (zpow_pos (by norm_num) e) hlo
  have h1 : Int.log 2 q < e + 1 :=
    (Int.lt_zpow_iff_log_lt Nat.one_lt_two hq).1 (by simpa using hhi)
  have h2 : e ≤ Int.log 2 q :=
    (Int.zpow_le_iff_le_log Nat.one_lt_two hq).1 (by simpa using hlo)
  omega

theorem roundHalfEven_intCast (k : ℤ) : roundHalfEven (k : ℚ) = k := by
  unfold roundHalfEven
  rw [Int.floor_intCast, sub_self, if_pos (by norm_num)]

theorem roundHalfEven_add_half (k : ℤ) (hk : k % 2 = 1) :
    roundHalfEven ((k : ℚ) + 1 / 2) = k + 1 := by
  have hfl : ⌊(k : ℚ) + 1 / 2⌋ = k := by
    rw [Int.floor_eq_iff]
    constructor <;> norm_num
  unfold roundHalfEven
  rw [hfl, add_sub_cancel_left, if_neg (lt_irrefl _), if_neg (lt_irrefl _),
    if_neg (by omega)]

theorem roundDouble_of_log (q : ℚ) (e : ℤ) (hq : q ≠ 0) (hlog : Int.log 2 |q| = e) :
    roundDouble q = (roundHalfEven (q / 2 ^ (e - 52)) : ℚ) * 2 ^ (e - 52) := by
  unfold roundDouble
  rw [if_neg hq, hlog]

theorem roundingSnapshot4_b :
    b roundingSnapshot4 = ![3152519739159347 / 2 ^ 50, 0, 0] := by
  funext i
  fin_cases i <;>
    simp [b, roundingSnapshot4, Matrix.mulVec, dotProduct, Fin.sum_univ_succ, Matrix.vecHead,
      Matrix.vecTail]

theorem roundingSnapshot4_M2f :
    M2f (Controller 4) roundingSnapshot4 ![1 / 128, 0, 0] = ![375 / 64, 0, 0] := by
  have hf : f (Controller 4) roundingSnapshot4 ![1 / 128, 0, 0] = ![375 / 64, 0, 0] := by
    rw [f_of_gains _ _ _ (Controller_mKp 4) (Controller_mKv 4)]
    funext i
    fin_cases i <;> simp [roundingSnapshot4, snapshot4] <;> norm_num
  have hM2 : M2 roundingSnapshot4 = 1 := by
    ext i j
    fin_cases i <;> fin_cases j <;>
      simp [M2, roundingSnapshot4, snapshot4, Matrix.mul_apply, Fin.sum_univ_succ,
        Matrix.transpose_apply, Matrix.vecHead, Matrix.vecTail]
  unfold M2f
  rw [hf, hM2, Matrix.one_mulVec]

/-- In double arithmetic the sum of the double nearest to 2.8 and of 375/64 is
rounded, and subtracting the first term again does not give 375/64 back. -/
theorem rhs_double_example :
    roundDouble (roundDouble (3152519739159347 / 2 ^ 50 + 375 / 64) - 3152519739159347 / 2 ^ 50)
      = 375 / 64 + 1 / 2 ^ 50 := by
  have h1 : roundDouble (3152519739159347 / 2 ^ 50 + 375 / 64 : ℚ)
      = 2437397376453837 / 2 ^ 48 := by
    rw [roundDouble_of_log _ 3 (by norm_num)
      (by rw [abs_of_pos (by norm_num)]; exact log_two_eq _ 3 (by norm_num) (by norm_num))]
    have hq : (3152519739159347 / 2 ^ 50 + 375 / 64 : ℚ) / 2 ^ ((3 : ℤ) - 52)
        = ((4874794752907673 : ℤ) : ℚ) + 1 / 2 := by
      norm_num
    rw [hq, roundHalfEven_add_half _ (by norm_num)]
    norm_num
  rw [h1]
  rw [roundDouble_of_log _ 2 (by norm_num)
    (by rw [abs_of_pos (by norm_num)]; exact log_two_eq _ 2 (by norm_num) (by norm_num))]
  have hq : (2437397376453837 / 2 ^ 48 - 3152519739159347 / 2 ^ 50 : ℚ) / 2 ^ ((2 : ℤ) - 52)
      = ((6597069766656001 : ℤ) : ℚ) := by
    norm_num
  rw [hq, roundHalfEven_intCast]
  norm_num

/-- The double 375/64 is left as it is by rounding. -/
theorem roundDouble_example : roundDouble (375 / 64) = 375 / 64 := by
  rw [roundDouble_of_log _ 2 (by norm_num)
    (by rw [abs_of_pos (by norm_num)]; exact log_two_eq _ 2 (by norm_num) (by norm_num))]
  have hq : (375 / 64 : ℚ) / 2 ^ ((2 : ℤ) - 52) = ((6597069766656000 : ℤ) : ℚ) := by
    norm_num
  rw [hq, roundHalfEven_intCast]
  norm_num

/-! ### Evaluation on `stiffSnapshot7` -/

theorem vec7_five (a0 a1 a2 a3 a4 a5 a6 : ℚ) :
    (![a0, a1, a2, a3, a4, a5, a6] : Fin 7 → ℚ) 5 = a5 :=
  rfl

theorem vec7_six (a0 a1 a2 a3 a4 a5 a6 : ℚ) :
    (![a0, a1, a2, a3, a4, a5, a6] : Fin 7 → ℚ) 6 = a6 :=
  rfl

theorem stiffSnapshot7_A :
    stiffSnapshot7.Jv * stiffSnapshot7.invM
      = !![1, 0, 0, 0, 0, 0, 0; 0, 10 ^ 20, 0, 0, 0, 0, 0; 0, 0, 10 ^ 20, 0, 0, 0, 0] := by
  ext i j
  fin_cases i <;> fin_cases j <;>
    simp [stiffSnapshot7, Matrix.mul_apply, Fin.sum_univ_succ, Matrix.diagonal_apply,
      Matrix.vecHead, Matrix.vecTail, vec7_five, vec7_six]

theorem stiffSnapshot7_rank : stiffSnapshot7.Jv.rank = 3 := by
  rw [rank_eq_height_iff]
  intro w hw
  have h0 := congrFun hw 0
  have h1 := congrFun hw 1
  have h2 := congrFun hw 2
  simp [stiffSnapshot7, Matrix.vecMul, dotProduct, Fin.sum_univ_succ] at h0 h1 h2
  funext i
  fin_cases i <;> simp [h0, h1, h2]

theorem stiffSnapshot7_invM_symm : stiffSnapshot7.invMᵀ = stiffSnapshot7.invM :=
  Matrix.diagonal_transpose _

theorem stiffSnapshot7_invM_pos (v : Fin 7 → ℚ) (hv : v ≠ 0) :
    0 < v ⬝ᵥ (stiffSnapshot7.invM *ᵥ v) := by
  have hd : ∀ i : Fin 7, (0 : ℚ) < ![1, 10 ^ 20, 10 ^ 20, 1, 1, 1, 1] i := by
    intro i
    fin_cases i <;> simp [vec7_five, vec7_six]
  obtain ⟨i, hi⟩ : ∃ i, v i ≠ 0 := by
    by_contra hcon
    push_neg at hcon
    exact hv (funext hcon)
  unfold dotProduct
  apply Finset.sum_pos'
  · intro j _
    rw [show stiffSnapshot7.invM = Matrix.diagonal ![1, 10 ^ 20, 10 ^ 20, 1, 1, 1, 1] from rfl,
      Matrix.mulVec_diagonal]
    have := mul_nonneg (le_of_lt (hd j)) (mul_self_nonneg (v j))
    linarith
  · refine ⟨i, Finset.mem_univ _, ?_⟩
    rw [show stiffSnapshot7.invM = Matrix.diagonal ![1, 10 ^ 20, 10 ^ 20, 1, 1, 1, 1] from rfl,
      Matrix.mulVec_diagonal]
    have := mul_pos (hd i) (mul_self_pos.2 hi)
    linarith

theorem stiffSnapshot7_desired_ddx :
    desired_ddx (Controller 7) stiffSnapshot7 (stiffSnapshot7.x + ![1 / 10, 0, 0])
      = ![75, 0, 0] := by
  have hf : f (Controller 7) stiffSnapshot7 (stiffSnapshot7.x + ![1 / 10, 0, 0])
      = ![75, 0, 0] := by
    rw [f_of_gains _ _ _ (Controller_mKp 7) (Controller_mKv 7)]
    funext i
    fin_cases i <;> simp [stiffSnapshot7] <;> norm_num
  have hM2 : M2 stiffSnapshot7 = !![1, 0, 0; 0, 10 ^ 20, 0; 0, 0, 10 ^ 20] := by
    unfold M2
    rw [stiffSnapshot7_A]
    ext i j
    fin_cases i <;> fin_cases j <;>
      simp [stiffSnapshot7, Matrix.mul_apply, Fin.sum_univ_succ, Matrix.transpose_apply,
        Matrix.vecHead, Matrix.vecTail]
  have hb : b stiffSnapshot7 = 0 := by
    simp [b, stiffSnapshot7]
  unfold desired_ddx
  rw [hf, hM2, hb, zero_add]
  funext i
  fin_cases i <;> simp [Matrix.mulVec, dotProduct, Fin.sum_univ_succ]

set_option maxRecDepth 8000 in
/-- On `stiffSnapshot7` the decomposition counts 2 pivots, in the columns 1 and
2: the pivot of column 0, of norm 1, is below the threshold.  The solution is
zero in column 0. -/
theorem stiffSnapshot7_solve (rhs : Vector3d) :
    solve (colPivHouseholderQr
        (!![1, 0, 0, 0, 0, 0, 0; 0, 10 ^ 20, 0, 0, 0, 0, 0; 0, 0, 10 ^ 20, 0, 0, 0, 0] :
          Matrix (Fin 3) (Fin 7) ℚ)) rhs
      = some ![0, rhs 1 / 10 ^ 20, rhs 2 / 10 ^ 20, 0, 0, 0, 0] := by
  have hfin : List.finRange 7 = [0, 1, 2, 3, 4, 5, 6] := by decide
  simp only [colPivHouseholderQr, thresholdHelper, columns, epsilon, hfin, List.map]
  norm_num [qrLoop, pickPivot, extract, maxNorm, sqNorm, dotProduct, Fin.sum_univ_succ,
    eliminate, solve, solveSum, Matrix.vecHead, Matrix.vecTail]
  funext i
  fin_cases i <;> simp [Matrix.vecHead, Matrix.vecTail, Pi.single_apply, vec7_five, vec7_six] <;>
    ring

/-! ### Positive-definite inverse mass matrix -/

/-- For a symmetric positive-definite `invM`, the product `Jv·invM` has rank 3
whenever `Jv` has. -/
theorem rank_mul_invM {n : ℕ} (Jv : Matrix (Fin 3) (Fin n) ℚ) (invM : Matrix (Fin n) (Fin n) ℚ)
    (hsymm : invMᵀ = invM) (hpos : ∀ v : Fin n → ℚ, v ≠ 0 → 0 < v ⬝ᵥ (invM *ᵥ v))
    (hJ : Jv.rank = 3) : (Jv * invM).rank = 3 := by
  rw [rank_eq_height_iff] at hJ ⊢
  intro w hw
  apply hJ
  by_contra hu
  have h := hpos _ hu
  rw [← hsymm, Matrix.mulVec_transpose, Matrix.vecMul_vecMul, hw, dotProduct_zero] at h
  exact lt_irrefl _ h

/-- The diagonal entries of `Jv·invM·Jvᵗ` are positive when `invM` is positive
definite and `Jv` has rank 3. -/
theorem M2_diag_pos {n : ℕ} (s : Snapshot n)
    (hpos : ∀ v : Fin n → ℚ, v ≠ 0 → 0 < v ⬝ᵥ (s.invM *ᵥ v)) (hJ : s.Jv.rank = 3)
    (i : Fin 3) : 0 < (M2 s *ᵥ Pi.single i 1) i := by
  have hu : s.Jvᵀ *ᵥ Pi.single i 1 ≠ 0 := by
    intro h0
    rw [Matrix.mulVec_transpose] at h0
    have := (rank_eq_height_iff s.Jv).1 hJ _ h0
    have h1 := congrFun this i
    simp at h1
  have h := hpos _ hu
  have hrew : (M2 s *ᵥ Pi.single i 1) i
      = (s.Jvᵀ *ᵥ Pi.single i 1) ⬝ᵥ (s.invM *ᵥ (s.Jvᵀ *ᵥ Pi.single i 1)) := by
    have h1 : (M2 s *ᵥ Pi.single i 1) i = Pi.single i 1 ⬝ᵥ (M2 s *ᵥ Pi.single i 1) := by
      rw [single_dotProduct, one_mul]
    rw [h1]
    unfold M2
    rw [← Matrix.mulVec_mulVec, ← Matrix.mulVec_mulVec, Matrix.dotProduct_mulVec,
      ← Matrix.mulVec_transpose]
  rw [hrew]
  exact h

/-- For the gains `750·I`, `250·I`, joints and end effector at rest and the
target `x + (0.1, 0, 0)`, the x component of `desired_ddx` is positive. -/
theorem desired_ddx_positive_x {n : ℕ} (c : ControllerState n) (s : Snapshot n)
    (target : Vector3d)
    (hKp : c.mKp = (750 : ℚ) • (1 : Matrix (Fin 3) (Fin 3) ℚ))
    (hKv : c.mKv = (250 : ℚ) • (1 : Matrix (Fin 3) (Fin 3) ℚ))
    (hdq : s.dq = 0) (hdx : s.dx = 0)
    (hpos : ∀ v : Fin n → ℚ, v ≠ 0 → 0 < v ⬝ᵥ (s.invM *ᵥ v))
    (hJ : s.Jv.rank = 3) (htarget : target = s.x + ![1 / 10, 0, 0]) :
    0 < desired_ddx c s target 0 := by
  have hf : f c s target = (75 : ℚ) • (Pi.single 0 1 : Fin 3 → ℚ) := by
    rw [f_of_gains c s target hKp hKv, htarget, hdx]
    funext i
    fin_cases i <;> simp <;> norm_num
  unfold desired_ddx b
  rw [hf, hdq, Matrix.mulVec_zero, zero_add, Matrix.mulVec_smul, Pi.smul_apply, smul_eq_mul]
  exact mul_pos (by norm_num) (M2_diag_pos s hpos hJ 0)

/-! ### The torque step on a matrix with 3 counted pivots -/

/-- When `Jv·invM` is not zero and 3 pivots are counted, the torque step has a
result, and the stored and the applied torque reproduce `ddx`. -/
theorem torqueStep_exact {n : ℕ} (c : ControllerState n) (s : Snapshot n) (ddx : Vector3d)
    (hA : s.Jv * s.invM ≠ 0) (hpiv : (colPivHouseholderQr (s.Jv * s.invM)).length = 3) :
    ∃ r, torqueStep c s ddx = some r ∧
      (s.Jv * s.invM) *ᵥ (r.1.mForces - s.Cg) + s.dJv *ᵥ s.dq = ddx ∧
      (s.Jv * s.invM) *ᵥ (r.2 - s.Cg) + s.dJv *ᵥ s.dq = ddx := by
  obtain ⟨y, hy, hAy⟩ := mulVec_solve_of_length _ hA hpiv (ddx - s.dJv *ᵥ s.dq)
  have h : (s.Jv * s.invM) *ᵥ (s.Cg + y - s.Cg) + s.dJv *ᵥ s.dq = ddx := by
    rw [add_sub_cancel_left, hAy, sub_add_cancel]
  exact ⟨_, torqueStep_of_solve c s ddx y hy, h, h⟩

/-! ### Construction and the state invariant -/

/-- In every state that can occur the gains are those set by the constructor. -/
theorem reachable_gains {dof : ℕ} (c : ControllerState dof) (hc : Reachable dof c) :
    c.mKp = (750 : ℚ) • (1 : Matrix (Fin 3) (Fin 3) ℚ) ∧
      c.mKv = (250 : ℚ) • (1 : Matrix (Fin 3) (Fin 3) ℚ) := by
  induction hc with
  | init => exact ⟨Controller_mKp dof, Controller_mKv dof⟩
  | call c s target optimize r _ hr ih =>
    rw [update_eq_none] at hr
    cases hr
  | step c s ddx r _ hr ih =>
    obtain ⟨y, -, rfl⟩ := torqueStep_eq_some c s ddx r hr
    exact ih

theorem scaled_one_offdiag (k : ℚ) (i j : Fin 3) (hij : i ≠ j) :
    (k • (1 : Matrix (Fin 3) (Fin 3) ℚ)) i j = 0 := by
  simp [Matrix.one_apply, hij]

theorem scaled_one_diag (k : ℚ) (i : Fin 3) :
    (k • (1 : Matrix (Fin 3) (Fin 3) ℚ)) i i = k := by
  simp [Matrix.one_apply]

/-! ### The registered problem -/

theorem tol_eq_zero : tol = 0 := by
  unfold tol truncToInt
  rw [if_pos (by norm_num)]
  rw [Int.floor_eq_zero_iff]
  constructor <;> norm_num

/-- The objective expanded around a point: the linear part is
`2·(ddx − desired_ddx)`. -/
theorem nonlinear_objective_add (d x h : Vector3d) :
    nonlinear_objective d (x + h)
      = nonlinear_objective d x + ((2 : ℚ) • (x - d)) ⬝ᵥ h + h ⬝ᵥ h := by
  unfold nonlinear_objective
  have hsplit : x + h - d = (x - d) + h := by abel
  rw [hsplit, add_dotProduct, dotProduct_add, dotProduct_add, smul_dotProduct, smul_eq_mul,
    dotProduct_comm h (x - d)]
  ring

theorem nonlinear_objective_self (d : Vector3d) : nonlinear_objective d d = 0 := by
  simp [nonlinear_objective]

theorem nonlinear_objective_nonneg (d x : Vector3d) : 0 ≤ nonlinear_objective d x :=
  sqNorm_nonneg (x - d)

theorem nonlinear_objective_eq_zero (d x : Vector3d) (h : nonlinear_objective d x = 0) :
    x = d :=
  sub_eq_zero.1 (sqNorm_eq_zero.1 h)

/-- The gains are all that `f`, `desired_ddx` and `problem` read from the
controller state. -/
theorem desired_ddx_congr {n : ℕ} (c c' : ControllerState n) (s : Snapshot n)
    (target : Vector3d) (hKp : c'.mKp = c.mKp) (hKv : c'.mKv = c.mKv) :
    desired_ddx c' s target = desired_ddx c s target := by
  simp [desired_ddx, f, hKp, hKv]

theorem problem_congr {n : ℕ} (c c' : ControllerState n) (s : Snapshot n)
    (target : Vector3d) (hKp : c'.mKp = c.mKp) (hKv : c'.mKv = c.mKv) :
    problem c' s target = problem c s target := by
  simp [problem, desired_ddq, desired_ddx_congr c c' s target hKp hKv]

theorem desired_ddx_sub_b {n : ℕ} (c : ControllerState n) (s : Snapshot n)
    (target : Vector3d) : desired_ddx c s target - b s = M2 s *ᵥ f c s target := by
  simp [desired_ddx]

/-- On a set that contains `d`, the minimisers of the objective are exactly
`d`. -/
theorem isMinimiserOn_iff (S : Set Vector3d) (d : Vector3d) (hd : d ∈ S) (x : Vector3d) :
    IsMinimiserOn S (nonlinear_objective d) x ↔ x = d := by
  constructor
  · rintro ⟨-, hmin⟩
    have h := hmin d hd
    rw [nonlinear_objective_self] at h
    exact nonlinear_objective_eq_zero d x (le_antisymm h (nonlinear_objective_nonneg d x))
  · rintro rfl
    refine ⟨hd, fun y _ => ?_⟩
    rw [nonlinear_objective_self]
    exact nonlinear_objective_nonneg x y

/-! ### The torque step on the example snapshots -/

theorem snapshot4_torqueStep (c : ControllerState 4) (ddx : Vector3d) :
    torqueStep c snapshot4 ddx
      = some (⟨snapshot4.Cg + ![ddx 0 / 3, ddx 1 / 2, ddx 2, 0], c.mKp, c.mKv⟩,
          snapshot4.Cg + ![ddx 0 / 3, ddx 1 / 2, ddx 2, 0]) := by
  apply torqueStep_of_solve
  rw [snapshot4_A, snapshot4_b, sub_zero]
  exact (snapshot4_solve ddx).2

theorem snapshot4_qr_length :
    (colPivHouseholderQr (snapshot4.Jv * snapshot4.invM)).length = 3 := by
  rw [snapshot4_A]
  exact (snapshot4_solve 0).1

theorem snapshot4_torque (c : ControllerState 4) (ddx : Vector3d) :
    ∃ r, torqueStep c snapshot4 ddx = some r ∧
      r.1.mForces = ![ddx 0 / 3, ddx 1 / 2, ddx 2, 0] ∧
      r.2 = ![ddx 0 / 3, ddx 1 / 2, ddx 2, 0] := by
  have hCg : snapshot4.Cg + ![ddx 0 / 3, ddx 1 / 2, ddx 2, 0]
      = ![ddx 0 / 3, ddx 1 / 2, ddx 2, 0] := by
    rw [show snapshot4.Cg = 0 from rfl, zero_add]
  exact ⟨_, snapshot4_torqueStep c ddx, hCg, hCg⟩

theorem snapshot4_ne_zero : snapshot4.Jv * snapshot4.invM ≠ 0 :=
  ne_zero_of_rank _ snapshot4_rank

theorem snapshot7_invM_symm : snapshot7.invMᵀ = snapshot7.invM := by
  simp [snapshot7]

theorem snapshot7_ne_zero : snapshot7.Jv * snapshot7.invM ≠ 0 :=
  ne_zero_of_rank _
    (rank_mul_invM snapshot7.Jv snapshot7.invM snapshot7_invM_symm snapshot7_invM_pos
      snapshot7_rank)

theorem stiffSnapshot7_torqueStep :
    torqueStep (Controller 7) stiffSnapshot7 ![75, 0, 0]
      = some (⟨stiffSnapshot7.Cg, (Controller 7).mKp, (Controller 7).mKv⟩,
          stiffSnapshot7.Cg) := by
  have hy : solve (colPivHouseholderQr (stiffSnapshot7.Jv * stiffSnapshot7.invM))
      (![75, 0, 0] - stiffSnapshot7.dJv *ᵥ stiffSnapshot7.dq) = some 0 := by
    have hb : stiffSnapshot7.dJv *ᵥ stiffSnapshot7.dq = 0 := by
      simp [stiffSnapshot7]
    rw [stiffSnapshot7_A, hb, sub_zero, stiffSnapshot7_solve]
    congr 1
    funext i
    fin_cases i <;> simp [vec7_five, vec7_six]
  have h := torqueStep_of_solve (Controller 7) stiffSnapshot7 ![75, 0, 0] 0 hy
  rw [add_zero] at h
  exact h

/-! ## The claims -/

/-- C1 (amended): for a snapshot with `J·M⁻¹ ≠ 0` and the value `a` that
`desired_ddx` holds at line 120, the torque step of `update` (lines 105, 120
and 123) stores and hands to `setForces` the torque `Cg + y`, where `y` is the
value of `(J·M⁻¹).colPivHouseholderQr().solve(a − b)` and `b = dJ·dq`.  This
`y` is zero outside the columns that carry a counted pivot, its residual is
orthogonal to each of these columns, and no vector that is zero outside these
columns has a smaller residual.  The same holds of lines 104-123 for every
optimizer call that leaves `a` in `desired_ddx`. -/
theorem torqueStep_qr_solution {n : ℕ} (c : ControllerState n) (s : Snapshot n) (a : Vector3d)
    (hA : s.Jv * s.invM ≠ 0) :
    ∃ (r : ControllerState n × (Fin n → ℚ)) (y : Fin n → ℚ),
      torqueStep c s a = some r ∧
      (∀ (target : Vector3d) (optimize : Optimizer n),
        refined_ddx c s target optimize = some a →
          refineAndApply c s target optimize = some r) ∧
      solve (colPivHouseholderQr (s.Jv * s.invM)) (a - s.dJv *ᵥ s.dq) = some y ∧
      r.1.mForces = s.Cg + y ∧ r.2 = s.Cg + y ∧
      (∀ j, y j ≠ 0 → ∃ p ∈ colPivHouseholderQr (s.Jv * s.invM), p.idx = j) ∧
      (∀ p ∈ colPivHouseholderQr (s.Jv * s.invM),
        (fun i => (s.Jv * s.invM) i p.idx) ⬝ᵥ
          ((s.Jv * s.invM) *ᵥ y - (a - s.dJv *ᵥ s.dq)) = 0) ∧
      ∀ z : Fin n → ℚ,
        (∀ j, z j ≠ 0 → ∃ p ∈ colPivHouseholderQr (s.Jv * s.invM), p.idx = j) →
        sqNorm ((s.Jv * s.invM) *ᵥ y - (a - s.dJv *ᵥ s.dq))
          ≤ sqNorm ((s.Jv * s.invM) *ᵥ z - (a - s.dJv *ᵥ s.dq)) := by
  have hy := colPivHouseholderQr_solve (s.Jv * s.invM) hA (a - s.dJv *ᵥ s.dq)
  have hr := torqueStep_of_solve c s a _ hy
  refine ⟨_, _, hr, fun target optimize h => ?_, hy, rfl, rfl,
    solve_support _ _ _ hy, solve_residual_orthogonal _ _ _ hy,
    solve_least_squares_on_pivots _ _ _ hy⟩
  rw [refineAndApply_of_refined c s target optimize a h, hr]

/-- Witness of C1: `snapshot4` with the acceleration `(7500, 0, 0)`. -/
theorem torqueStep_qr_solution_witness :
    snapshot4.Jv * snapshot4.invM ≠ 0 ∧
      ∃ (r : ControllerState 4 × (Fin 4 → ℚ)) (y : Fin 4 → ℚ),
        torqueStep (Controller 4) snapshot4 ![7500, 0, 0] = some r ∧
        solve (colPivHouseholderQr (snapshot4.Jv * snapshot4.invM))
          (![7500, 0, 0] - snapshot4.dJv *ᵥ snapshot4.dq) = some y ∧
        r.1.mForces = snapshot4.Cg + y ∧ r.2 = snapshot4.Cg + y :=
  ⟨snapshot4_ne_zero,
    let ⟨r, y, h1, _, h3, h4, h5, _⟩ :=
      torqueStep_qr_solution (Controller 4) snapshot4 ![7500, 0, 0] snapshot4_ne_zero
    ⟨r, y, h1, h3, h4, h5⟩⟩

/-- C1, as stated, fails: on `snapshot4` with target `(1, 0, 0)` and an
optimizer that leaves `desired_ddx` untouched, the term added to `Cg` is
`(2500, 0, 0, 0)`, while `(2250, 0, 0, 750)` solves the same system and is
shorter; so the added term is not the minimum-norm solution. -/
theorem torqueStep_not_min_norm :
    ∃ r, refineAndApply (Controller 4) snapshot4 ![1, 0, 0] (throwingOptimizer 4) = some r ∧
      r.1.mForces - snapshot4.Cg = ![2500, 0, 0, 0] ∧
      r.2 - snapshot4.Cg = ![2500, 0, 0, 0] ∧
      ¬ IsMinNormLeastSquares (snapshot4.Jv * snapshot4.invM)
        (desired_ddx (Controller 4) snapshot4 ![1, 0, 0] - snapshot4.dJv *ᵥ snapshot4.dq)
        (r.2 - snapshot4.Cg) := by
  obtain ⟨r, hr, h1, h2⟩ := snapshot4_torque (Controller 4)
    (desired_ddx (Controller 4) snapshot4 ![1, 0, 0])
  have hv : ![desired_ddx (Controller 4) snapshot4 ![1, 0, 0] 0 / 3,
      desired_ddx (Controller 4) snapshot4 ![1, 0, 0] 1 / 2,
      desired_ddx (Controller 4) snapshot4 ![1, 0, 0] 2, 0] = ![2500, 0, 0, 0] := by
    rw [snapshot4_desired_ddx]
    funext i
    fin_cases i <;> simp <;> norm_num
  rw [hv] at h1 h2
  have hCg : snapshot4.Cg = 0 := rfl
  refine ⟨r, ?_, ?_, ?_, ?_⟩
  · rw [refineAndApply_of_refined (Controller 4) snapshot4 ![1, 0, 0] (throwingOptimizer 4)
      (desired_ddx (Controller 4) snapshot4 ![1, 0, 0]) rfl, hr]
  · rw [h1, hCg, sub_zero]
  · rw [h2, hCg, sub_zero]
  rw [h2, hCg, sub_zero, snapshot4_desired_ddx, snapshot4_b, sub_zero, snapshot4_A]
  rintro ⟨-, hmin⟩
  have hz : IsLeastSquares (!![3, 0, 0, 1; 0, 2, 0, 0; 0, 0, 1, 0] : Matrix (Fin 3) (Fin 4) ℚ)
      ![7500, 0, 0] ![2250, 0, 0, 750] := by
    intro z
    have h0 : (!![3, 0, 0, 1; 0, 2, 0, 0; 0, 0, 1, 0] : Matrix (Fin 3) (Fin 4) ℚ)
        *ᵥ ![2250, 0, 0, 750] - ![7500, 0, 0] = 0 := by
      funext i
      fin_cases i <;> simp [Matrix.mulVec, dotProduct, Fin.sum_univ_succ] <;> norm_num
    have hzero : sqNorm (0 : Fin 3 → ℚ) = 0 := sqNorm_eq_zero.2 rfl
    rw [h0, hzero]
    exact sqNorm_nonneg _
  have h := hmin _ hz
  simp [sqNorm, dotProduct, Fin.sum_univ_succ] at h
  norm_num at h

/-- C2: before refinement, the desired task-space acceleration is
`dJ·dq + (J·M⁻¹·Jᵗ)·(−Kp·(x − x_target) − Kv·dx)`. -/
theorem desired_ddx_eq {n : ℕ} (c : ControllerState n) (s : Snapshot n) (target : Vector3d) :
    desired_ddx c s target =
      s.dJv *ᵥ s.dq + (s.Jv * s.invM * s.Jvᵀ) *ᵥ
        (-(c.mKp *ᵥ (s.x - target)) - c.mKv *ᵥ s.dx) := by
  simp [desired_ddx, b, M2, f, Matrix.neg_mulVec]

/-- C3 (amended): when `J·M⁻¹` has rank 3 and the decomposition counts 3
pivots, the torque step of `update` has a result for every value `a` of
`desired_ddx` at line 120, and the torque it stores and hands to `setForces`
reproduces `a`: `J·M⁻¹·(τ − Cg) + dJ·dq = a`, and with `Cg = 0` also
`J·M⁻¹·τ + dJ·dq = a`.  The same holds of lines 104-123 for every optimizer
call that leaves `a` in `desired_ddx`. -/
theorem torqueStep_round_trip {n : ℕ} (c : ControllerState n) (s : Snapshot n) (a : Vector3d)
    (hrank : (s.Jv * s.invM).rank = 3)
    (hpiv : (colPivHouseholderQr (s.Jv * s.invM)).length = 3) :
    ∃ r, torqueStep c s a = some r ∧
      (∀ (target : Vector3d) (optimize : Optimizer n),
        refined_ddx c s target optimize = some a →
          refineAndApply c s target optimize = some r) ∧
      (s.Jv * s.invM) *ᵥ (r.1.mForces - s.Cg) + s.dJv *ᵥ s.dq = a ∧
      (s.Jv * s.invM) *ᵥ (r.2 - s.Cg) + s.dJv *ᵥ s.dq = a ∧
      (s.Cg = 0 →
        (s.Jv * s.invM) *ᵥ r.1.mForces + s.dJv *ᵥ s.dq = a ∧
          (s.Jv * s.invM) *ᵥ r.2 + s.dJv *ᵥ s.dq = a) := by
  obtain ⟨r, hr, h1, h2⟩ := torqueStep_exact c s a (ne_zero_of_rank _ hrank) hpiv
  refine ⟨r, hr, fun target optimize h => ?_, h1, h2, fun hCg => ?_⟩
  · rw [refineAndApply_of_refined c s target optimize a h, hr]
  · rw [hCg, sub_zero] at h1 h2
    exact ⟨h1, h2⟩

/-- Witness of C3: `snapshot4`, where `Cg = 0`, with the unrefined
acceleration for the target `(1, 0, 0)`. -/
theorem torqueStep_round_trip_witness :
    (snapshot4.Jv * snapshot4.invM).rank = 3 ∧
      (colPivHouseholderQr (snapshot4.Jv * snapshot4.invM)).length = 3 ∧
      snapshot4.Cg = 0 ∧
      ∃ r, torqueStep (Controller 4) snapshot4
            (desired_ddx (Controller 4) snapshot4 ![1, 0, 0]) = some r ∧
        (snapshot4.Jv * snapshot4.invM) *ᵥ r.2 + snapshot4.dJv *ᵥ snapshot4.dq
          = desired_ddx (Controller 4) snapshot4 ![1, 0, 0] :=
  ⟨snapshot4_rank, snapshot4_qr_length, rfl,
    let ⟨r, h1, _, _, _, h5⟩ :=
      torqueStep_round_trip (Controller 4) snapshot4
        (desired_ddx (Controller 4) snapshot4 ![1, 0, 0]) snapshot4_rank snapshot4_qr_length
    ⟨r, h1, (h5 rfl).2⟩⟩

/-- C3, as stated, fails: on `snapshot3`, where `J·M⁻¹ = diag(10^20, 1, 10^20)`
has rank 3, with target `(0, 1, 0)` and an optimizer that returns its initial
guess, the desired acceleration is `(0, 750, 0)`, the decomposition drops the
pivot of norm 1, the torque stored and applied is zero, and the acceleration it
induces is zero. -/
theorem round_trip_fails_below_threshold :
    (snapshot3.Jv * snapshot3.invM).rank = 3 ∧
      refined_ddx (Controller 3) snapshot3 ![0, 1, 0] (idleOptimizer 3) = some ![0, 750, 0] ∧
      ∃ r, refineAndApply (Controller 3) snapshot3 ![0, 1, 0] (idleOptimizer 3) = some r ∧
        r.1.mForces = 0 ∧ r.2 = 0 ∧
        (snapshot3.Jv * snapshot3.invM) *ᵥ (r.2 - snapshot3.Cg)
          + snapshot3.dJv *ᵥ snapshot3.dq = 0 ∧
        (snapshot3.Jv * snapshot3.invM) *ᵥ (r.2 - snapshot3.Cg)
          + snapshot3.dJv *ᵥ snapshot3.dq ≠ ![0, 750, 0] := by
  have hddx : refined_ddx (Controller 3) snapshot3 ![0, 1, 0] (idleOptimizer 3)
      = some ![0, 750, 0] := by
    rw [← snapshot3_desired_ddx]
    rfl
  have hb : snapshot3.dJv *ᵥ snapshot3.dq = 0 := by
    simp [snapshot3]
  have hy : solve (colPivHouseholderQr (snapshot3.Jv * snapshot3.invM))
      (![0, 750, 0] - snapshot3.dJv *ᵥ snapshot3.dq) = some 0 := by
    rw [snapshot3_A, hb, sub_zero, (snapshot3_solve _).2]
    congr 1
    funext i
    fin_cases i <;> simp
  have hr := torqueStep_of_solve (Controller 3) snapshot3 ![0, 750, 0] 0 hy
  have hCg : snapshot3.Cg = 0 := rfl
  rw [add_zero, hCg] at hr
  have hacc : (snapshot3.Jv * snapshot3.invM) *ᵥ ((0 : Fin 3 → ℚ) - snapshot3.Cg)
      + snapshot3.dJv *ᵥ snapshot3.dq = 0 := by
    rw [hb, hCg, sub_zero, Matrix.mulVec_zero, add_zero]
  refine ⟨snapshot3_rank, hddx, (⟨0, (Controller 3).mKp, (Controller 3).mKv⟩, 0), ?_, rfl, rfl,
    hacc, ?_⟩
  · rw [refineAndApply_of_refined _ _ _ _ _ hddx, hr]
  · show (snapshot3.Jv * snapshot3.invM) *ᵥ ((0 : Fin 3 → ℚ) - snapshot3.Cg)
      + snapshot3.dJv *ᵥ snapshot3.dq ≠ ![0, 750, 0]
    rw [hacc]
    intro h
    have h1 := congrFun h 1
    simp at h1

/-- C4: the code has no fallback to the unrefined `ddx_desired`.  The `catch`
of lines 115-117 prints and restores nothing, and no copy of the value of line
98 is kept: after an optimizer call that wrote `x` into `desired_ddx` and then
threw, or returned without converging, lines 118-123 compute the torque from
`x`.  On `snapshot4` with target `(1, 0, 0)` and the point `(-1, 0, 0)` the
torque stored and applied is `(-1/3, 0, 0, 0)`, while the unrefined
acceleration gives `(2500, 0, 0, 0)`.  When the optimizer evaluates the
registered constraint, which has no value, the program ends in the callback,
and `update` itself has no result, since lines 86-87 have no value. -/
theorem update_no_fallback {n : ℕ} (c : ControllerState n) (s : Snapshot n)
    (target x : Vector3d) (optimize : Optimizer n) :
    refined_ddx c s target (writeThenThrow n x) = some x ∧
      refineAndApply c s target (writeThenThrow n x) = torqueStep c s x ∧
      refined_ddx c s target (stoppingOptimizer n x) = some x ∧
      refineAndApply c s target (stoppingOptimizer n x) = torqueStep c s x ∧
      refineAndApply c s target (evaluatingOptimizer optimize) = none ∧
      update c s target optimize = none ∧
      (∃ r, refineAndApply (Controller 4) snapshot4 ![1, 0, 0] (writeThenThrow 4 ![-1, 0, 0])
            = some r ∧
          r.1.mForces = ![-1 / 3, 0, 0, 0] ∧ r.2 = ![-1 / 3, 0, 0, 0]) ∧
      ∃ r, torqueStep (Controller 4) snapshot4 (desired_ddx (Controller 4) snapshot4 ![1, 0, 0])
            = some r ∧
          r.1.mForces = ![2500, 0, 0, 0] ∧ r.2 = ![2500, 0, 0, 0] := by
  refine ⟨rfl, rfl, rfl, rfl, ?_, update_eq_none c s target optimize, ?_, ?_⟩
  · have hcon : (problem c s target).constraint (desired_ddx c s target) = none := by
      simp [problem, desired_ddq_eq_none]
    simp [refineAndApply, refined_ddx, evaluatingOptimizer, hcon]
  · obtain ⟨r, hr, h1, h2⟩ := snapshot4_torque (Controller 4) ![-1, 0, 0]
    have hv : (![(![-1, 0, 0] : Vector3d) 0 / 3, (![-1, 0, 0] : Vector3d) 1 / 2,
        (![-1, 0, 0] : Vector3d) 2, 0] : Fin 4 → ℚ) = ![-1 / 3, 0, 0, 0] := by
      funext i
      fin_cases i <;> simp
    rw [hv] at h1 h2
    exact ⟨r, hr, h1, h2⟩
  · obtain ⟨r, hr, h1, h2⟩ := snapshot4_torque (Controller 4)
      (desired_ddx (Controller 4) snapshot4 ![1, 0, 0])
    have hv : ![desired_ddx (Controller 4) snapshot4 ![1, 0, 0] 0 / 3,
        desired_ddx (Controller 4) snapshot4 ![1, 0, 0] 1 / 2,
        desired_ddx (Controller 4) snapshot4 ![1, 0, 0] 2, 0] = ![2500, 0, 0, 0] := by
      rw [snapshot4_desired_ddx]
      funext i
      fin_cases i <;> simp <;> norm_num
    rw [hv] at h1 h2
    exact ⟨r, hr, h1, h2⟩

/-- C5: the code does not form the matrix the claim speaks of.  Lines 86-87 add
`0.0025 * Matrix6d::Identity()`, of size 6, to the 3 x 3 product
`Jv * Jv.transpose()`; the sum is undefined, so `pinv_Jv` has no value for any
Jacobian.  With the identity of size 3 the damped pseudo-inverse is defined for
every Jacobian, as the claim says. -/
theorem pinv_Jv_undefined {n : ℕ} (Jv : Matrix (Fin 3) (Fin n) ℚ) :
    pinv_Jv Jv = none ∧
      (Jv * Jvᵀ + (1 / 400 : ℚ) • (1 : Matrix (Fin 3) (Fin 3) ℚ)).det ≠ 0 ∧
      (dampedPinv 3 Jv).isSome = true :=
  ⟨pinv_Jv_eq_none Jv, damped_det_ne_zero Jv, by rw [dampedPinv_three]; rfl⟩

/-- C6: no bound can be read off the code, because `pinv_Jv`, and with it
`desired_ddq` at line 102, has no value (the identity at lines 86-87 has size
6).  With the identity of size 3 the claimed bound holds:
`‖J⁺·v‖² ≤ 100·‖v‖²` for every Jacobian `J` and every `v`. -/
theorem desired_ddq_undefined {n : ℕ} (c : ControllerState n) (s : Snapshot n)
    (target : Vector3d) :
    desired_ddq c s target = none ∧
      ∀ v : Fin 3 → ℚ,
        sqNorm ((s.Jvᵀ * ((s.Jv * s.Jvᵀ + (1 / 400 : ℚ) • (1 : Matrix (Fin 3) (Fin 3) ℚ)).det⁻¹ •
          (s.Jv * s.Jvᵀ + (1 / 400 : ℚ) • (1 : Matrix (Fin 3) (Fin 3) ℚ)).adjugate)) *ᵥ v)
        ≤ 100 * sqNorm v :=
  ⟨desired_ddq_eq_none c s target, dampedPinv_three_bounded s.Jv⟩

/-- C7: `update` produces no torque, since lines 86-87 and 102 have no value.
The lines the claim is about behave as it says: for a snapshot with
`J·M⁻¹ ≠ 0`, when the value `ddx` of `desired_ddx` at line 120 equals the drift
term, the torque step stores and applies exactly `Cg`, and so do lines 104-123
for every optimizer call that leaves `ddx` in `desired_ddx`. -/
theorem update_gravity_only {n : ℕ} (c : ControllerState n) (s : Snapshot n)
    (target ddx : Vector3d) (optimize : Optimizer n)
    (hA : s.Jv * s.invM ≠ 0) (hzero : ddx - s.dJv *ᵥ s.dq = 0) :
    update c s target optimize = none ∧
      ∃ r, torqueStep c s ddx = some r ∧ r.1.mForces = s.Cg ∧ r.2 = s.Cg ∧
        (refined_ddx c s target optimize = some ddx →
          refineAndApply c s target optimize = some r) := by
  have hy := colPivHouseholderQr_solve (s.Jv * s.invM) hA (ddx - s.dJv *ᵥ s.dq)
  have hr := torqueStep_of_solve c s ddx _ hy
  have h0 : solveSum (colPivHouseholderQr (s.Jv * s.invM)) (ddx - s.dJv *ᵥ s.dq) = 0 := by
    rw [hzero, solveSum_zero]
  rw [h0, add_zero] at hr
  refine ⟨update_eq_none c s target optimize, _, hr, rfl, rfl, fun h => ?_⟩
  rw [refineAndApply_of_refined c s target optimize ddx h, hr]

/-- Witness of C7: `snapshot7` with the target at the current position. -/
theorem update_gravity_only_witness :
    snapshot7.Jv * snapshot7.invM ≠ 0 ∧
      desired_ddx (Controller 7) snapshot7 snapshot7.x - snapshot7.dJv *ᵥ snapshot7.dq = 0 ∧
      update (Controller 7) snapshot7 snapshot7.x (idleOptimizer 7) = none ∧
      ∃ r, torqueStep (Controller 7) snapshot7
            (desired_ddx (Controller 7) snapshot7 snapshot7.x) = some r ∧
        r.1.mForces = snapshot7.Cg ∧ r.2 = snapshot7.Cg :=
  have h : desired_ddx (Controller 7) snapshot7 snapshot7.x
      - snapshot7.dJv *ᵥ snapshot7.dq = 0 := by
    rw [desired_ddx_at_rest _ _ _ rfl rfl]
    exact sub_self _
  let ⟨h1, r, h2, h3, h4, _⟩ :=
    update_gravity_only (Controller 7) snapshot7 snapshot7.x
      (desired_ddx (Controller 7) snapshot7 snapshot7.x) (idleOptimizer 7) snapshot7_ne_zero h
  ⟨snapshot7_ne_zero, h, h1, r, h2, h3, h4⟩

/-- C8: when the target is the current end-effector position and the
end-effector velocity is zero, the virtual force is zero and the desired
task-space acceleration is the drift term `dJ·dq`. -/
theorem f_zero_at_target {n : ℕ} (c : ControllerState n) (s : Snapshot n) (target : Vector3d)
    (htarget : target = s.x) (hdx : s.dx = 0) :
    f c s target = 0 ∧ desired_ddx c s target = s.dJv *ᵥ s.dq :=
  ⟨f_at_rest c s target htarget hdx, desired_ddx_at_rest c s target htarget hdx⟩

/-- Witness of C8: `snapshot7` with the target at the current position. -/
theorem f_zero_at_target_witness :
    snapshot7.dx = 0 ∧ f (Controller 7) snapshot7 snapshot7.x = 0 ∧
      desired_ddx (Controller 7) snapshot7 snapshot7.x = snapshot7.dJv *ᵥ snapshot7.dq :=
  ⟨rfl, f_zero_at_target (Controller 7) snapshot7 snapshot7.x rfl rfl⟩

/-- C9 (amended): for 7 degrees of freedom, gains `Kp = 750·I`, `Kv = 250·I`,
zero joint and end-effector velocity, a symmetric positive-definite inverse
mass matrix, a Jacobian of rank 3 and the target `x + (0.1, 0, 0)`, if the
optimizer call leaves in `desired_ddx` the value of line 98 and the
decomposition of `J·M⁻¹` counts 3 pivots, then lines 104-123 of `update` have a
result, and the acceleration `J·M⁻¹·(τ − Cg) + dJ·dq` induced by the torque
`τ` handed to `setForces`, which is also the torque stored, has a positive x
component. -/
theorem refineAndApply_positive_x (c : ControllerState 7) (s : Snapshot 7) (target : Vector3d)
    (optimize : Optimizer 7)
    (hKp : c.mKp = (750 : ℚ) • (1 : Matrix (Fin 3) (Fin 3) ℚ))
    (hKv : c.mKv = (250 : ℚ) • (1 : Matrix (Fin 3) (Fin 3) ℚ))
    (hdq : s.dq = 0) (hdx : s.dx = 0)
    (hsymm : s.invMᵀ = s.invM) (hpos : ∀ v : Fin 7 → ℚ, v ≠ 0 → 0 < v ⬝ᵥ (s.invM *ᵥ v))
    (hJ : s.Jv.rank = 3) (htarget : target = s.x + ![1 / 10, 0, 0])
    (hopt : refined_ddx c s target optimize = some (desired_ddx c s target))
    (hpiv : (colPivHouseholderQr (s.Jv * s.invM)).length = 3) :
    ∃ r, refineAndApply c s target optimize = some r ∧
      0 < ((s.Jv * s.invM) *ᵥ (r.2 - s.Cg) + s.dJv *ᵥ s.dq) 0 ∧
      0 < ((s.Jv * s.invM) *ᵥ (r.1.mForces - s.Cg) + s.dJv *ᵥ s.dq) 0 := by
  have hA := ne_zero_of_rank _ (rank_mul_invM s.Jv s.invM hsymm hpos hJ)
  obtain ⟨r, hr, h1, h2⟩ := torqueStep_exact c s (desired_ddx c s target) hA hpiv
  have hx := desired_ddx_positive_x c s target hKp hKv hdq hdx hpos hJ htarget
  refine ⟨r, ?_, ?_, ?_⟩
  · rw [refineAndApply_of_refined c s target optimize _ hopt, hr]
  · rw [h2]
    exact hx
  · rw [h1]
    exact hx

/-- Witness of C9: `snapshot7` with the default gains and an optimizer that
returns its initial guess. -/
theorem refineAndApply_positive_x_witness :
    snapshot7.Jv.rank = 3 ∧
      (colPivHouseholderQr (snapshot7.Jv * snapshot7.invM)).length = 3 ∧
      refined_ddx (Controller 7) snapshot7 (snapshot7.x + ![1 / 10, 0, 0]) (idleOptimizer 7)
        = some (desired_ddx (Controller 7) snapshot7 (snapshot7.x + ![1 / 10, 0, 0])) ∧
      ∃ r, refineAndApply (Controller 7) snapshot7 (snapshot7.x + ![1 / 10, 0, 0])
            (idleOptimizer 7) = some r ∧
        0 < ((snapshot7.Jv * snapshot7.invM) *ᵥ (r.2 - snapshot7.Cg)
          + snapshot7.dJv *ᵥ snapshot7.dq) 0 :=
  ⟨snapshot7_rank, snapshot7_qr_length, rfl,
    let ⟨r, h1, h2, _⟩ :=
      refineAndApply_positive_x (Controller 7) snapshot7 (snapshot7.x + ![1 / 10, 0, 0])
        (idleOptimizer 7) (Controller_mKp 7) (Controller_mKv 7) rfl rfl
        snapshot7_invM_symm snapshot7_invM_pos snapshot7_rank rfl rfl snapshot7_qr_length
    ⟨r, h1, h2⟩⟩

/-- C9, as stated, fails in two ways, each with the default gains, joints and
end effector at rest, a symmetric positive-definite inverse mass matrix, a
Jacobian of rank 3 and the target `x + (0.1, 0, 0)`.  On `snapshot7`, when the
optimizer returns the point `(-1, 0, 0)`, the induced acceleration has the x
component `-1`.  On `stiffSnapshot7`, when the optimizer returns its initial
guess, the decomposition drops the pivot of the first column, the torque is
`Cg`, and the induced acceleration has the x component 0. -/
theorem positive_x_fails :
    ((Controller 7).mKp = (750 : ℚ) • (1 : Matrix (Fin 3) (Fin 3) ℚ) ∧
      (Controller 7).mKv = (250 : ℚ) • (1 : Matrix (Fin 3) (Fin 3) ℚ)) ∧
    (snapshot7.dq = 0 ∧ snapshot7.dx = 0 ∧ snapshot7.invMᵀ = snapshot7.invM ∧
      (∀ v : Fin 7 → ℚ, v ≠ 0 → 0 < v ⬝ᵥ (snapshot7.invM *ᵥ v)) ∧ snapshot7.Jv.rank = 3 ∧
      ∃ r, refineAndApply (Controller 7) snapshot7 (snapshot7.x + ![1 / 10, 0, 0])
            (returningOptimizer 7 ![-1, 0, 0]) = some r ∧
        ((snapshot7.Jv * snapshot7.invM) *ᵥ (r.2 - snapshot7.Cg)
          + snapshot7.dJv *ᵥ snapshot7.dq) 0 = -1) ∧
    (stiffSnapshot7.dq = 0 ∧ stiffSnapshot7.dx = 0 ∧
      stiffSnapshot7.invMᵀ = stiffSnapshot7.invM ∧
      (∀ v : Fin 7 → ℚ, v ≠ 0 → 0 < v ⬝ᵥ (stiffSnapshot7.invM *ᵥ v)) ∧
      stiffSnapshot7.Jv.rank = 3 ∧
      ∃ r, refineAndApply (Controller 7) stiffSnapshot7 (stiffSnapshot7.x + ![1 / 10, 0, 0])
            (idleOptimizer 7) = some r ∧
        r.2 = stiffSnapshot7.Cg ∧
        ((stiffSnapshot7.Jv * stiffSnapshot7.invM) *ᵥ (r.2 - stiffSnapshot7.Cg)
          + stiffSnapshot7.dJv *ᵥ stiffSnapshot7.dq) 0 = 0) := by
  refine ⟨⟨Controller_mKp 7, Controller_mKv 7⟩,
    ⟨rfl, rfl, snapshot7_invM_symm, snapshot7_invM_pos, snapshot7_rank, ?_⟩,
    ⟨rfl, rfl, stiffSnapshot7_invM_symm, stiffSnapshot7_invM_pos, stiffSnapshot7_rank, ?_⟩⟩
  · obtain ⟨r, hr, -, h2⟩ := torqueStep_exact (Controller 7) snapshot7 ![-1, 0, 0]
      snapshot7_ne_zero snapshot7_qr_length
    refine ⟨r, ?_, ?_⟩
    · rw [refineAndApply_of_refined (Controller 7) snapshot7 (snapshot7.x + ![1 / 10, 0, 0])
        (returningOptimizer 7 ![-1, 0, 0]) ![-1, 0, 0] rfl, hr]
    · rw [h2]
      rfl
  · have hddx : refined_ddx (Controller 7) stiffSnapshot7 (stiffSnapshot7.x + ![1 / 10, 0, 0])
        (idleOptimizer 7) = some ![75, 0, 0] := by
      rw [← stiffSnapshot7_desired_ddx]
      rfl
    refine ⟨(⟨stiffSnapshot7.Cg, (Controller 7).mKp, (Controller 7).mKv⟩, stiffSnapshot7.Cg),
      ?_, rfl, ?_⟩
    · rw [refineAndApply_of_refined _ _ _ _ _ hddx, stiffSnapshot7_torqueStep]
    · show ((stiffSnapshot7.Jv * stiffSnapshot7.invM) *ᵥ (stiffSnapshot7.Cg - stiffSnapshot7.Cg)
        + stiffSnapshot7.dJv *ᵥ stiffSnapshot7.dq) 0 = 0
      rw [sub_self, Matrix.mulVec_zero]
      simp [stiffSnapshot7]

/-- C10: `lconstraint` performs no validation of the lower bound.  The bound is
the local `mForces_lower_bound`, which is never set and has size 0, and it is
used directly in `M*desired_ddq + Cg - mForces_lower_bound`: for a robot with 7
degrees of freedom the difference of a vector of size 7 and one of size 0 has
no value, and so has the constraint that `update` registers. -/
theorem lconstraint_undefined (c : ControllerState 7) (s : Snapshot 7) (target ddx : Vector3d)
    (desired_ddq : Fin 7 → ℚ) :
    lconstraint s.Cg s.M desired_ddq = none ∧
      (problem c s target).constraint ddx = none := by
  refine ⟨lconstraint_eq_none s.Cg s.M desired_ddq, ?_⟩
  simp [problem, desired_ddq_eq_none]

/-- C11: immediately after construction the force state is the zero vector (of
`dof` entries), `Kp = 750·I₃` and `Kv = 250·I₃`; all off-diagonal gain entries
are zero. -/
theorem Controller_initial (dof : ℕ) :
    (Controller dof).mForces = 0 ∧
      (List.ofFn (Controller dof).mForces).length = dof ∧
      (Controller dof).mKp = (750 : ℚ) • (1 : Matrix (Fin 3) (Fin 3) ℚ) ∧
      (Controller dof).mKv = (250 : ℚ) • (1 : Matrix (Fin 3) (Fin 3) ℚ) ∧
      ∀ i j : Fin 3, i ≠ j → (Controller dof).mKp i j = 0 ∧ (Controller dof).mKv i j = 0 := by
  refine ⟨rfl, List.length_ofFn _, Controller_mKp dof, Controller_mKv dof, fun i j hij => ?_⟩
  simp [Controller, hij]

/-- Witness of C11: an off-diagonal entry of each gain for 7 degrees of
freedom. -/
theorem Controller_initial_witness :
    (0 : Fin 3) ≠ 1 ∧ (Controller 7).mKp 0 1 = 0 ∧ (Controller 7).mKv 0 1 = 0 :=
  ⟨by decide, (Controller_initial 7).2.2.2.2 0 1 (by decide)⟩

/-- C12: in every state reached by construction followed by any sequence of
`update` calls, or of torque steps of `update`, `Kp` and `Kv` are diagonal with
non-negative entries; `update`, its lines 104-123 and its torque step leave
them unchanged; and the stored torque vector has `dof` entries. -/
theorem reachable_invariant {dof : ℕ} (c : ControllerState dof) (hc : Reachable dof c) :
    (∀ i j : Fin 3, i ≠ j → c.mKp i j = 0 ∧ c.mKv i j = 0) ∧
      (∀ i : Fin 3, 0 ≤ c.mKp i i ∧ 0 ≤ c.mKv i i) ∧
      (∀ (s : Snapshot dof) (target : Vector3d) (optimize : Optimizer dof)
          (r : ControllerState dof × (Fin dof → ℚ)),
        (update c s target optimize = some r → r.1.mKp = c.mKp ∧ r.1.mKv = c.mKv) ∧
        (refineAndApply c s target optimize = some r →
          r.1.mKp = c.mKp ∧ r.1.mKv = c.mKv)) ∧
      (∀ (s : Snapshot dof) (ddx : Vector3d) (r : ControllerState dof × (Fin dof → ℚ)),
        torqueStep c s ddx = some r → r.1.mKp = c.mKp ∧ r.1.mKv = c.mKv) ∧
      (List.ofFn c.mForces).length = dof := by
  obtain ⟨hKp, hKv⟩ := reachable_gains c hc
  have hstep : ∀ (s : Snapshot dof) (ddx : Vector3d) (r : ControllerState dof × (Fin dof → ℚ)),
      torqueStep c s ddx = some r → r.1.mKp = c.mKp ∧ r.1.mKv = c.mKv := by
    intro s ddx r hr
    obtain ⟨y, -, rfl⟩ := torqueStep_eq_some c s ddx r hr
    exact ⟨rfl, rfl⟩
  refine ⟨fun i j hij => ?_, fun i => ?_, fun s target optimize r => ⟨fun hr => ?_, fun hr => ?_⟩,
    hstep, List.length_ofFn _⟩
  · rw [hKp, hKv]
    exact ⟨scaled_one_offdiag 750 i j hij, scaled_one_offdiag 250 i j hij⟩
  · rw [hKp, hKv, scaled_one_diag, scaled_one_diag]
    constructor <;> norm_num
  · rw [update_eq_none] at hr
    cases hr
  · cases hddx : refined_ddx c s target optimize with
    | none =>
      simp [refineAndApply, hddx] at hr
    | some ddx =>
      rw [refineAndApply_of_refined c s target optimize ddx hddx] at hr
      exact hstep s ddx r hr

/-- Witness of C12: the state left by the torque step on `snapshot4` from the
state after construction. -/
theorem reachable_invariant_witness :
    ∃ r, torqueStep (Controller 4) snapshot4 ![7500, 0, 0] = some r ∧ Reachable 4 r.1 ∧
      (∀ i : Fin 3, 0 ≤ r.1.mKp i i ∧ 0 ≤ r.1.mKv i i) ∧
      (List.ofFn r.1.mForces).length = 4 :=
  let ⟨r, hr, _, _⟩ := snapshot4_torque (Controller 4) ![7500, 0, 0]
  ⟨r, hr, Reachable.step _ _ _ r Reachable.init hr,
    (reachable_invariant r.1 (Reachable.step _ _ _ r Reachable.init hr)).2.1,
    (reachable_invariant r.1 (Reachable.step _ _ _ r Reachable.init hr)).2.2.2.2⟩

/-- C13: the tolerance that `update` registers with the constraint is not
`1e-8`.  Line 103 stores `1e-8` in an `int`, which truncates it, and line 110
registers that `int`: the registered tolerance is 0. -/
theorem registered_tol {n : ℕ} (c : ControllerState n) (s : Snapshot n) (target : Vector3d) :
    (problem c s target).tol = 0 ∧
      ((problem c s target).tol : ℚ) ≠ 1 / 100000000 := by
  have h : (problem c s target).tol = 0 := tol_eq_zero
  rw [h]
  exact ⟨rfl, by norm_num⟩

/-- C14: the objective registered by `update` returns `‖ddx − ddx_desired‖²`,
but no gradient is supplied with it: `nonlinear_objective` has no gradient
parameter.  The vector `2·(ddx − ddx_desired)` named by the claim is the
gradient of that objective: it is the linear part of its expansion. -/
theorem registered_objective {n : ℕ} (c : ControllerState n) (s : Snapshot n)
    (target ddx : Vector3d) :
    (problem c s target).objective ddx = sqNorm (ddx - desired_ddx c s target) ∧
      (problem c s target).gradient ddx = none ∧
      ∀ h : Vector3d,
        (problem c s target).objective (ddx + h)
          = (problem c s target).objective ddx
            + ((2 : ℚ) • (ddx - desired_ddx c s target)) ⬝ᵥ h + sqNorm h :=
  ⟨rfl, rfl, fun h => nonlinear_objective_add (desired_ddx c s target) ddx h⟩

/-- C15: `update` stores and applies no torque, since lines 86-87 and 102 have
no value.  The lines the claim is about behave as it says: for two controller
states with the same gains, whatever forces they store, and optimizer calls
that end in the same way, lines 104-123 give the same result, that is, the
same stored and the same applied torque, and so does the torque step for every
value of `desired_ddx`. -/
theorem update_ignores_stored_forces {n : ℕ} (c c' : ControllerState n) (s : Snapshot n)
    (target : Vector3d) (optimize optimize' : Optimizer n)
    (hKp : c'.mKp = c.mKp) (hKv : c'.mKv = c.mKv)
    (hopt : optimize' (problem c' s target) (desired_ddx c' s target)
      = optimize (problem c s target) (desired_ddx c s target)) :
    update c' s target optimize' = none ∧ update c s target optimize = none ∧
      refineAndApply c' s target optimize' = refineAndApply c s target optimize ∧
      ∀ ddx : Vector3d, torqueStep c' s ddx = torqueStep c s ddx := by
  have hddx : refined_ddx c' s target optimize' = refined_ddx c s target optimize := by
    unfold refined_ddx
    rw [hopt]
  refine ⟨update_eq_none _ _ _ _, update_eq_none _ _ _ _, ?_,
    fun ddx => torqueStep_congr c c' s ddx hKp hKv⟩
  unfold refineAndApply
  rw [hddx]
  congr 1
  funext ddx
  exact torqueStep_congr c c' s ddx hKp hKv

/-- Witness of C15: the state after construction and `otherForces4`, which
stores other forces; lines 104-123 store and apply `(2500, 0, 0, 0)` from
both. -/
theorem update_ignores_stored_forces_witness :
    otherForces4.mForces ≠ (Controller 4).mForces ∧
      refineAndApply otherForces4 snapshot4 ![1, 0, 0] (throwingOptimizer 4)
        = refineAndApply (Controller 4) snapshot4 ![1, 0, 0] (throwingOptimizer 4) ∧
      (refineAndApply (Controller 4) snapshot4 ![1, 0, 0] (throwingOptimizer 4)).isSome
        = true :=
  ⟨fun h => by
      have h0 := congrFun h 0
      simp [otherForces4, Controller] at h0,
    (update_ignores_stored_forces (Controller 4) otherForces4 snapshot4 ![1, 0, 0]
      (throwingOptimizer 4) (throwingOptimizer 4) rfl rfl rfl).2.2.1,
    by
      rw [refineAndApply_of_refined (Controller 4) snapshot4 ![1, 0, 0] (throwingOptimizer 4)
        (desired_ddx (Controller 4) snapshot4 ![1, 0, 0]) rfl, snapshot4_torqueStep]
      rfl⟩

/-- C16: the constraint registered by `update` does not read the decision
variable, so for every test `ok` an optimizer may apply to its value the
feasible set is all of `ℚ³` or empty; when it is not empty the minimisers of the
objective over it are exactly `desired_ddx`, and an optimizer that returns such
a minimiser leaves the acceleration unrefined. -/
theorem constraint_ignores_ddx {n : ℕ} (c : ControllerState n) (s : Snapshot n)
    (target : Vector3d) (ok : Option (Fin n → ℚ) → ℤ → Prop) :
    (∀ ddx ddx' : Vector3d,
        (problem c s target).constraint ddx = (problem c s target).constraint ddx') ∧
      (feasible (problem c s target) ok = Set.univ ∨ feasible (problem c s target) ok = ∅) ∧
      ((feasible (problem c s target) ok).Nonempty →
        (∀ x : Vector3d,
          IsMinimiserOn (feasible (problem c s target) ok) (problem c s target).objective x
            ↔ x = desired_ddx c s target) ∧
        ∀ (optimize : Optimizer n) (x : Vector3d),
          optimize (problem c s target) (desired_ddx c s target) = OptResult.returned x →
          IsMinimiserOn (feasible (problem c s target) ok) (problem c s target).objective x →
          refined_ddx c s target optimize = some (desired_ddx c s target)) := by
  have hconst : ∀ ddx ddx' : Vector3d,
      (problem c s target).constraint ddx = (problem c s target).constraint ddx' :=
    fun _ _ => rfl
  have hmem : ∀ ddx ddx' : Vector3d, ddx ∈ feasible (problem c s target) ok →
      ddx' ∈ feasible (problem c s target) ok := fun _ _ h => h
  refine ⟨hconst, ?_, fun hne => ?_⟩
  · by_cases hne : (feasible (problem c s target) ok).Nonempty
    · obtain ⟨y, hy⟩ := hne
      exact Or.inl (Set.eq_univ_of_forall fun x => hmem y x hy)
    · exact Or.inr (Set.not_nonempty_iff_eq_empty.1 hne)
  · obtain ⟨y, hy⟩ := hne
    have hd : desired_ddx c s target ∈ feasible (problem c s target) ok := hmem y _ hy
    have hiff : ∀ x : Vector3d,
        IsMinimiserOn (feasible (problem c s target) ok) (problem c s target).objective x
          ↔ x = desired_ddx c s target :=
      fun x => isMinimiserOn_iff _ (desired_ddx c s target) hd x
    refine ⟨hiff, fun optimize x hret hmin => ?_⟩
    rw [refined_ddx_of_returned c s target optimize x hret, (hiff x).1 hmin]

/-- Witness of C16: `snapshot7`, an optimizer that accepts every value of the
constraint, and an optimizer that returns its initial guess. -/
theorem constraint_ignores_ddx_witness :
    (feasible (problem (Controller 7) snapshot7 ![1, 0, 0]) (fun _ _ => True)).Nonempty ∧
      refined_ddx (Controller 7) snapshot7 ![1, 0, 0] (idleOptimizer 7)
        = some (desired_ddx (Controller 7) snapshot7 ![1, 0, 0]) :=
  have hne : (feasible (problem (Controller 7) snapshot7 ![1, 0, 0])
      (fun _ _ => True)).Nonempty := ⟨0, trivial⟩
  have h := (constraint_ignores_ddx (Controller 7) snapshot7 ![1, 0, 0]
    (fun _ _ => True)).2.2 hne
  ⟨hne, h.2 (idleOptimizer 7) (desired_ddx (Controller 7) snapshot7 ![1, 0, 0]) rfl
    ((h.1 _).2 rfl)⟩

/-- C17 (amended): in exact arithmetic the drift term cancels.  The unrefined
right-hand side `desired_ddx − b` of the solve is `(J·M⁻¹·Jᵗ)·f`, and the
vector `desired_ddx − dJv*dq` to which line 102 applies the pseudo-inverse is
the same, so that `P·(desired_ddx − dJv*dq) = P·(J·M⁻¹·Jᵗ)·f` for every matrix
`P` that stands for `pinv_Jv`, the damped pseudo-inverse with the identity of
size 3 among them.  Hence for a snapshot and the same snapshot with another
Jacobian derivative the solve receives the same right-hand side, the torque
step on the unrefined acceleration gives the same result, and so do lines
104-123 whenever the optimizer call leaves the acceleration unrefined in both
calls. -/
theorem drift_cancels {n : ℕ} (c : ControllerState n) (s : Snapshot n)
    (dJv' : Matrix (Fin 3) (Fin n) ℚ) (target : Vector3d) :
    desired_ddx c s target - b s = (s.Jv * s.invM * s.Jvᵀ) *ᵥ f c s target ∧
      (∀ P : Matrix (Fin n) (Fin 3) ℚ,
        P *ᵥ (desired_ddx c s target - s.dJv *ᵥ s.dq)
          = P *ᵥ ((s.Jv * s.invM * s.Jvᵀ) *ᵥ f c s target)) ∧
      (dampedPinv 3 s.Jv).map (fun P => P *ᵥ (desired_ddx c s target - s.dJv *ᵥ s.dq))
        = (dampedPinv 3 s.Jv).map (fun P => P *ᵥ ((s.Jv * s.invM * s.Jvᵀ) *ᵥ f c s target)) ∧
      desired_ddx c { s with dJv := dJv' } target - b { s with dJv := dJv' }
        = desired_ddx c s target - b s ∧
      torqueStep c { s with dJv := dJv' } (desired_ddx c { s with dJv := dJv' } target)
        = torqueStep c s (desired_ddx c s target) ∧
      ∀ optimize optimize' : Optimizer n,
        refined_ddx c s target optimize = some (desired_ddx c s target) →
        refined_ddx c { s with dJv := dJv' } target optimize'
          = some (desired_ddx c { s with dJv := dJv' } target) →
        refineAndApply c { s with dJv := dJv' } target optimize'
          = refineAndApply c s target optimize := by
  have h1 := desired_ddx_sub_b c s target
  have h2 := desired_ddx_sub_b c { s with dJv := dJv' } target
  have hb : desired_ddx c s target - s.dJv *ᵥ s.dq = M2 s *ᵥ f c s target := h1
  have hrhs : desired_ddx c { s with dJv := dJv' } target - b { s with dJv := dJv' }
      = desired_ddx c s target - b s := by
    rw [h1, h2]
    rfl
  have hstep : torqueStep c { s with dJv := dJv' } (desired_ddx c { s with dJv := dJv' } target)
      = torqueStep c s (desired_ddx c s target) := by
    unfold torqueStep
    rw [hrhs]
    rfl
  refine ⟨h1, fun P => ?_, ?_, hrhs, hstep, fun optimize optimize' hun hun' => ?_⟩
  · rw [hb]
    rfl
  · rw [hb]
    rfl
  · rw [refineAndApply_of_refined _ _ _ _ _ hun, refineAndApply_of_refined _ _ _ _ _ hun',
      hstep]

/-- Witness of C17: `movingSnapshot4` and the same snapshot with a zero Jacobian
derivative have different drift terms, and the torque step on the unrefined
acceleration has the same result, which is a torque, for both. -/
theorem drift_cancels_witness :
    b movingSnapshot4 ≠ b { movingSnapshot4 with dJv := 0 } ∧
      torqueStep (Controller 4) { movingSnapshot4 with dJv := 0 }
          (desired_ddx (Controller 4) { movingSnapshot4 with dJv := 0 } ![1, 0, 0])
        = torqueStep (Controller 4) movingSnapshot4
          (desired_ddx (Controller 4) movingSnapshot4 ![1, 0, 0]) ∧
      (torqueStep (Controller 4) { movingSnapshot4 with dJv := 0 }
          (desired_ddx (Controller 4) { movingSnapshot4 with dJv := 0 } ![1, 0, 0])).isSome
        = true :=
  ⟨fun h => by
      have h0 := congrFun h 0
      simp [b, movingSnapshot4, Matrix.mulVec, dotProduct, Fin.sum_univ_succ] at h0,
    (drift_cancels (Controller 4) movingSnapshot4 0 ![1, 0, 0]).2.2.2.2.1,
    by
      have hA : ({ movingSnapshot4 with dJv := 0 } : Snapshot 4).Jv
          * ({ movingSnapshot4 with dJv := 0 } : Snapshot 4).invM ≠ 0 := snapshot4_ne_zero
      rw [torqueStep_of_solve _ _ _ _ (colPivHouseholderQr_solve _ hA _)]
      rfl⟩

/-- C17, as stated, fails in double arithmetic: on `roundingSnapshot4` with
target `(1/128, 0, 0)`, where `b = (2.8, 0, 0)` rounded to a double and
`M2·f = (375/64, 0, 0)` are computed without rounding, the sum `b + M2·f` of
line 98 is rounded, and the right-hand side `desired_ddx − b` of line 120 is
`375/64 + 2^-50` in its first entry, not `375/64`; for the same snapshot with a
zero Jacobian derivative it is `375/64`. -/
theorem rhs_double_ne_M2f :
    rhs_double
        (desired_ddx_double (b roundingSnapshot4)
          (M2f (Controller 4) roundingSnapshot4 ![1 / 128, 0, 0]))
        (b roundingSnapshot4) 0 = 375 / 64 + 1 / 2 ^ 50 ∧
      M2f (Controller 4) roundingSnapshot4 ![1 / 128, 0, 0] 0 = 375 / 64 ∧
      rhs_double
        (desired_ddx_double (b roundingSnapshot4)
          (M2f (Controller 4) roundingSnapshot4 ![1 / 128, 0, 0]))
        (b roundingSnapshot4) ≠ M2f (Controller 4) roundingSnapshot4 ![1 / 128, 0, 0] ∧
      rhs_double
        (desired_ddx_double (b { roundingSnapshot4 with dJv := 0 })
          (M2f (Controller 4) { roundingSnapshot4 with dJv := 0 } ![1 / 128, 0, 0]))
        (b { roundingSnapshot4 with dJv := 0 }) 0 = 375 / 64 := by
  have hv : rhs_double
      (desired_ddx_double (b roundingSnapshot4)
        (M2f (Controller 4) roundingSnapshot4 ![1 / 128, 0, 0]))
      (b roundingSnapshot4) 0 = 375 / 64 + 1 / 2 ^ 50 := by
    unfold rhs_double desired_ddx_double
    rw [roundingSnapshot4_b, roundingSnapshot4_M2f]
    exact rhs_double_example
  have hm : M2f (Controller 4) roundingSnapshot4 ![1 / 128, 0, 0] 0 = 375 / 64 := by
    rw [roundingSnapshot4_M2f]
    rfl
  refine ⟨hv, hm, fun h => ?_, ?_⟩
  · have h0 := congrFun h 0
    rw [hv, hm] at h0
    norm_num at h0
  · have hb : b { roundingSnapshot4 with dJv := 0 } = 0 := by
      simp [b]
    have hM : M2f (Controller 4) { roundingSnapshot4 with dJv := 0 } ![1 / 128, 0, 0]
        = ![375 / 64, 0, 0] := roundingSnapshot4_M2f
    unfold rhs_double desired_ddx_double
    rw [hb, hM]
    show roundDouble (roundDouble (0 + 375 / 64) - 0) = 375 / 64
    rw [zero_add, sub_zero, roundDouble_example, roundDouble_example]

end Controller
